import Mathlib

/-!
Shallow embedding of the AES implementation in `src/aes.c` (word-oriented
ECB/CBC/CTR AES).  Machine integers are modelled as `Nat`: bytes are
naturals below `256`, `uint32` values are naturals below `2 ^ 32`, and
`% 4294967296` is inserted exactly where a C shift discards high bits.
The `state_t` / `helper_t` unions read and write single bytes of a 32-bit
word; on the little-endian layout the code assumes (it pairs `a[k]` with
the shift offset `8 * k`), reading byte `k` of a word `w` is
`w / 2 ^ (8 * k) % 256`, and writing byte `k` replaces that slice.
The header `aes.h` is not among the sources; following the spec,
`AES_BLOCKLEN = 16`, a context holds the expanded round keys together with
a 16-byte IV/counter, and `(Nk, Nr)` is `(4, 10)`, `(6, 12)` or `(8, 14)`
for the 128/192/256-bit variants.  Buffers are lists of bytes; the
buffer-level mode drivers return `Option`, with `none` modelling an access
past the end of the buffer (the C loops read and write whole 16-byte
blocks, so a nonempty tail shorter than 16 bytes makes them touch memory
beyond the buffer).
-/

namespace TinyAES

/-- The 32-bit word whose little-endian bytes `a[0], a[1], a[2], a[3]`
(union view) are the four arguments, each a byte below `256`. -/
def ofBytes (b0 b1 b2 b3 : Nat) : Nat :=
  b0 + 256 * b1 + 65536 * b2 + 16777216 * b3

/-- Union read `.a[0]` of a 32-bit word. -/
def byte0 (w : Nat) : Nat := w % 256

/-- Union read `.a[1]` of a 32-bit word. -/
def byte1 (w : Nat) : Nat := w / 256 % 256

/-- Union read `.a[2]` of a 32-bit word. -/
def byte2 (w : Nat) : Nat := w / 65536 % 256

/-- Union read `.a[3]` of a 32-bit word. -/
def byte3 (w : Nat) : Nat := w / 16777216 % 256

/-- Union write `.a[0] = b` on a 32-bit word. -/
def setByte0 (w b : Nat) : Nat := w / 256 * 256 + b

/-- Union write `.a[3] = b` on a 32-bit word. -/
def setByte3 (w b : Nat) : Nat := w % 16777216 + 16777216 * b

/-- The forward S-box table of `aes.c`. -/
def sbox : List Nat := [
  0x63, 0x7c, 0x77, 0x7b, 0xf2, 0x6b, 0x6f, 0xc5, 0x30, 0x01, 0x67, 0x2b, 0xfe, 0xd7, 0xab, 0x76,
  0xca, 0x82, 0xc9, 0x7d, 0xfa, 0x59, 0x47, 0xf0, 0xad, 0xd4, 0xa2, 0xaf, 0x9c, 0xa4, 0x72, 0xc0,
  0xb7, 0xfd, 0x93, 0x26, 0x36, 0x3f, 0xf7, 0xcc, 0x34, 0xa5, 0xe5, 0xf1, 0x71, 0xd8, 0x31, 0x15,
  0x04, 0xc7, 0x23, 0xc3, 0x18, 0x96, 0x05, 0x9a, 0x07, 0x12, 0x80, 0xe2, 0xeb, 0x27, 0xb2, 0x75,
  0x09, 0x83, 0x2c, 0x1a, 0x1b, 0x6e, 0x5a, 0xa0, 0x52, 0x3b, 0xd6, 0xb3, 0x29, 0xe3, 0x2f, 0x84,
  0x53, 0xd1, 0x00, 0xed, 0x20, 0xfc, 0xb1, 0x5b, 0x6a, 0xcb, 0xbe, 0x39, 0x4a, 0x4c, 0x58, 0xcf,
  0xd0, 0xef, 0xaa, 0xfb, 0x43, 0x4d, 0x33, 0x85, 0x45, 0xf9, 0x02, 0x7f, 0x50, 0x3c, 0x9f, 0xa8,
  0x51, 0xa3, 0x40, 0x8f, 0x92, 0x9d, 0x38, 0xf5, 0xbc, 0xb6, 0xda, 0x21, 0x10, 0xff, 0xf3, 0xd2,
  0xcd, 0x0c, 0x13, 0xec, 0x5f, 0x97, 0x44, 0x17, 0xc4, 0xa7, 0x7e, 0x3d, 0x64, 0x5d, 0x19, 0x73,
  0x60, 0x81, 0x4f, 0xdc, 0x22, 0x2a, 0x90, 0x88, 0x46, 0xee, 0xb8, 0x14, 0xde, 0x5e, 0x0b, 0xdb,
  0xe0, 0x32, 0x3a, 0x0a, 0x49, 0x06, 0x24, 0x5c, 0xc2, 0xd3, 0xac, 0x62, 0x91, 0x95, 0xe4, 0x79,
  0xe7, 0xc8, 0x37, 0x6d, 0x8d, 0xd5, 0x4e, 0xa9, 0x6c, 0x56, 0xf4, 0xea, 0x65, 0x7a, 0xae, 0x08,
  0xba, 0x78, 0x25, 0x2e, 0x1c, 0xa6, 0xb4, 0xc6, 0xe8, 0xdd, 0x74, 0x1f, 0x4b, 0xbd, 0x8b, 0x8a,
  0x70, 0x3e, 0xb5, 0x66, 0x48, 0x03, 0xf6, 0x0e, 0x61, 0x35, 0x57, 0xb9, 0x86, 0xc1, 0x1d, 0x9e,
  0xe1, 0xf8, 0x98, 0x11, 0x69, 0xd9, 0x8e, 0x94, 0x9b, 0x1e, 0x87, 0xe9, 0xce, 0x55, 0x28, 0xdf,
  0x8c, 0xa1, 0x89, 0x0d, 0xbf, 0xe6, 0x42, 0x68, 0x41, 0x99, 0x2d, 0x0f, 0xb0, 0x54, 0xbb, 0x16]

/-- The inverse S-box table `rsbox` of `aes.c`. -/
def rsbox : List Nat := [
  0x52, 0x09, 0x6a, 0xd5, 0x30, 0x36, 0xa5, 0x38, 0xbf, 0x40, 0xa3, 0x9e, 0x81, 0xf3, 0xd7, 0xfb,
  0x7c, 0xe3, 0x39, 0x82, 0x9b, 0x2f, 0xff, 0x87, 0x34, 0x8e, 0x43, 0x44, 0xc4, 0xde, 0xe9, 0xcb,
  0x54, 0x7b, 0x94, 0x32, 0xa6, 0xc2, 0x23, 0x3d, 0xee, 0x4c, 0x95, 0x0b, 0x42, 0xfa, 0xc3, 0x4e,
  0x08, 0x2e, 0xa1, 0x66, 0x28, 0xd9, 0x24, 0xb2, 0x76, 0x5b, 0xa2, 0x49, 0x6d, 0x8b, 0xd1, 0x25,
  0x72, 0xf8, 0xf6, 0x64, 0x86, 0x68, 0x98, 0x16, 0xd4, 0xa4, 0x5c, 0xcc, 0x5d, 0x65, 0xb6, 0x92,
  0x6c, 0x70, 0x48, 0x50, 0xfd, 0xed, 0xb9, 0xda, 0x5e, 0x15, 0x46, 0x57, 0xa7, 0x8d, 0x9d, 0x84,
  0x90, 0xd8, 0xab, 0x00, 0x8c, 0xbc, 0xd3, 0x0a, 0xf7, 0xe4, 0x58, 0x05, 0xb8, 0xb3, 0x45, 0x06,
  0xd0, 0x2c, 0x1e, 0x8f, 0xca, 0x3f, 0x0f, 0x02, 0xc1, 0xaf, 0xbd, 0x03, 0x01, 0x13, 0x8a, 0x6b,
  0x3a, 0x91, 0x11, 0x41, 0x4f, 0x67, 0xdc, 0xea, 0x97, 0xf2, 0xcf, 0xce, 0xf0, 0xb4, 0xe6, 0x73,
  0x96, 0xac, 0x74, 0x22, 0xe7, 0xad, 0x35, 0x85, 0xe2, 0xf9, 0x37, 0xe8, 0x1c, 0x75, 0xdf, 0x6e,
  0x47, 0xf1, 0x1a, 0x71, 0x1d, 0x29, 0xc5, 0x89, 0x6f, 0xb7, 0x62, 0x0e, 0xaa, 0x18, 0xbe, 0x1b,
  0xfc, 0x56, 0x3e, 0x4b, 0xc6, 0xd2, 0x79, 0x20, 0x9a, 0xdb, 0xc0, 0xfe, 0x78, 0xcd, 0x5a, 0xf4,
  0x1f, 0xdd, 0xa8, 0x33, 0x88, 0x07, 0xc7, 0x31, 0xb1, 0x12, 0x10, 0x59, 0x27, 0x80, 0xec, 0x5f,
  0x60, 0x51, 0x7f, 0xa9, 0x19, 0xb5, 0x4a, 0x0d, 0x2d, 0xe5, 0x7a, 0x9f, 0x93, 0xc9, 0x9c, 0xef,
  0xa0, 0xe0, 0x3b, 0x4d, 0xae, 0x2a, 0xf5, 0xb0, 0xc8, 0xeb, 0xbb, 0x3c, 0x83, 0x53, 0x99, 0x61,
  0x17, 0x2b, 0x04, 0x7e, 0xba, 0x77, 0xd6, 0x26, 0xe1, 0x69, 0x14, 0x63, 0x55, 0x21, 0x0c, 0x7d]

/-- The round-constant table `Rcon` of `aes.c`. -/
def Rcon : List Nat := [
  0x8d, 0x01, 0x02, 0x04, 0x08, 0x10, 0x20, 0x40, 0x80, 0x1b, 0x36]

/-- Macro `getSBoxValue` (a read of `sbox[num]`). -/
def getSBoxValue (num : Nat) : Nat := sbox.getD num 0

/-- Macro `getSBoxInvert` (a read of `rsbox[num]`). -/
def getSBoxInvert (num : Nat) : Nat := rsbox.getD num 0

/-- Macro `getRconValue` (a read of `Rcon[num]`). -/
def getRconValue (num : Nat) : Nat := Rcon.getD num 0

/-- The `state_t` union seen through its `uint32_t i[4]` view: word `iK`
is column `K` of the AES state, and byte `r` of a word (little-endian) is
the state row `r` of that column. -/
@[ext] structure state_t where
  i0 : Nat
  i1 : Nat
  i2 : Nat
  i3 : Nat
deriving Repr, DecidableEq

/-- A word fits in 32 bits. -/
def wfWord (w : Nat) : Prop := w < 4294967296

/-- All four state words fit in 32 bits. -/
def wfState (s : state_t) : Prop :=
  wfWord s.i0 ∧ wfWord s.i1 ∧ wfWord s.i2 ∧ wfWord s.i3

/-- A buffer of bytes. -/
def Bytes (l : List Nat) : Prop := ∀ b ∈ l, b < 256

/-- A list of 32-bit words. -/
def wfWords (l : List Nat) : Prop := ∀ w ∈ l, w < 4294967296

/-- `AddRoundKey` of `aes.c`: XOR the four words of a round key into the
state (`(*state).i[i] ^= RoundKey->i[(round * Nb) + i]`, `Nb = 4`). -/
def AddRoundKey (round : Nat) (state : state_t) (RoundKey : List Nat) : state_t :=
  ⟨state.i0 ^^^ RoundKey.getD (round * 4 + 0) 0,
   state.i1 ^^^ RoundKey.getD (round * 4 + 1) 0,
   state.i2 ^^^ RoundKey.getD (round * 4 + 2) 0,
   state.i3 ^^^ RoundKey.getD (round * 4 + 3) 0⟩

/-- The body shared by `SubBytes` and `Subword()` in `KeyExpansion`: the
S-box applied to each byte of a word, reassembled with shifts and `|`. -/
def subWordBytes (w : Nat) : Nat :=
  getSBoxValue (byte0 w) |||
    getSBoxValue (byte1 w) <<< 8 |||
    getSBoxValue (byte2 w) <<< 16 |||
    getSBoxValue (byte3 w) <<< 24

/-- `SubBytes` of `aes.c`. -/
def SubBytes (state : state_t) : state_t :=
  ⟨subWordBytes state.i0, subWordBytes state.i1,
   subWordBytes state.i2, subWordBytes state.i3⟩

/-- The body of `InvSubBytes`, word-wise. -/
def invSubWordBytes (w : Nat) : Nat :=
  getSBoxInvert (byte0 w) |||
    getSBoxInvert (byte1 w) <<< 8 |||
    getSBoxInvert (byte2 w) <<< 16 |||
    getSBoxInvert (byte3 w) <<< 24

/-- `InvSubBytes` of `aes.c`. -/
def InvSubBytes (state : state_t) : state_t :=
  ⟨invSubWordBytes state.i0, invSubWordBytes state.i1,
   invSubWordBytes state.i2, invSubWordBytes state.i3⟩

/-- `ShiftRows` of `aes.c`, transcribing the mask/or steps on the four
lines (`MASK32_BYTEk = 0xFF << 8k`, `INVMASK32_BYTEk` its complement). -/
def ShiftRows (state : state_t) : state_t :=
  let line0 := state.i0
  let line1 := state.i1
  let line2 := state.i2
  let line3 := state.i3
  let temp := line0 &&& 0x0000FF00
  let line0 := line0 &&& 0xFFFF00FF
  let line0 := line0 ||| (line1 &&& 0x0000FF00)
  let line1 := line1 &&& 0xFFFF00FF
  let line1 := line1 ||| (line2 &&& 0x0000FF00)
  let line2 := line2 &&& 0xFFFF00FF
  let line2 := line2 ||| (line3 &&& 0x0000FF00)
  let line3 := line3 &&& 0xFFFF00FF
  let line3 := line3 ||| temp
  let temp := line0 &&& 0x00FF0000
  let line0 := line0 &&& 0xFF00FFFF
  let line0 := line0 ||| (line2 &&& 0x00FF0000)
  let line2 := line2 &&& 0xFF00FFFF
  let line2 := line2 ||| temp
  let temp := line1 &&& 0x00FF0000
  let line1 := line1 &&& 0xFF00FFFF
  let line1 := line1 ||| (line3 &&& 0x00FF0000)
  let line3 := line3 &&& 0xFF00FFFF
  let line3 := line3 ||| temp
  let temp := line0 &&& 0xFF000000
  let line0 := line0 &&& 0x00FFFFFF
  let line0 := line0 ||| (line3 &&& 0xFF000000)
  let line3 := line3 &&& 0x00FFFFFF
  let line3 := line3 ||| (line2 &&& 0xFF000000)
  let line2 := line2 &&& 0x00FFFFFF
  let line2 := line2 ||| (line1 &&& 0xFF000000)
  let line1 := line1 &&& 0x00FFFFFF
  let line1 := line1 ||| temp
  ⟨line0, line1, line2, line3⟩

/-- `InvShiftRows` of `aes.c`. -/
def InvShiftRows (state : state_t) : state_t :=
  let line0 := state.i0
  let line1 := state.i1
  let line2 := state.i2
  let line3 := state.i3
  let temp := line3 &&& 0x0000FF00
  let line3 := line3 &&& 0xFFFF00FF
  let line3 := line3 ||| (line2 &&& 0x0000FF00)
  let line2 := line2 &&& 0xFFFF00FF
  let line2 := line2 ||| (line1 &&& 0x0000FF00)
  let line1 := line1 &&& 0xFFFF00FF
  let line1 := line1 ||| (line0 &&& 0x0000FF00)
  let line0 := line0 &&& 0xFFFF00FF
  let line0 := line0 ||| temp
  let temp := line0 &&& 0x00FF0000
  let line0 := line0 &&& 0xFF00FFFF
  let line0 := line0 ||| (line2 &&& 0x00FF0000)
  let line2 := line2 &&& 0xFF00FFFF
  let line2 := line2 ||| temp
  let temp := line1 &&& 0x00FF0000
  let line1 := line1 &&& 0xFF00FFFF
  let line1 := line1 ||| (line3 &&& 0x00FF0000)
  let line3 := line3 &&& 0xFF00FFFF
  let line3 := line3 ||| temp
  let temp := line0 &&& 0xFF000000
  let line0 := line0 &&& 0x00FFFFFF
  let line0 := line0 ||| (line1 &&& 0xFF000000)
  let line1 := line1 &&& 0x00FFFFFF
  let line1 := line1 ||| (line2 &&& 0xFF000000)
  let line2 := line2 &&& 0x00FFFFFF
  let line2 := line2 ||| (line3 &&& 0xFF000000)
  let line3 := line3 &&& 0x00FFFFFF
  let line3 := line3 ||| temp
  ⟨line0, line1, line2, line3⟩

/-- `xtime` of `aes.c`: four byte lanes of a word multiplied by `{02}` in
`GF(2 ^ 8)` at once (no `uint32` overflow is possible here). -/
def xtime (x : Nat) : Nat :=
  ((x &&& 0x7f7f7f7f) <<< 1) ^^^ (((x &&& 0x80808080) >>> 7) * 0x1b)

/-- The body of `MixColumns`, acting on one column word `sp`; the C
rotations `(sp << k) | (sp >> 32 - k)` truncate the shift to 32 bits. -/
def mixColumnsWord (sp : Nat) : Nat :=
  xtime (sp ^^^ ((sp >>> 8) ||| (sp <<< 24 % 4294967296))) ^^^
    ((sp <<< 8 % 4294967296) ||| (sp >>> 24)) ^^^
    ((sp <<< 16 % 4294967296) ||| (sp >>> 16)) ^^^
    ((sp <<< 24 % 4294967296) ||| (sp >>> 8))

/-- `MixColumns` of `aes.c`. -/
def MixColumns (state : state_t) : state_t :=
  ⟨mixColumnsWord state.i0, mixColumnsWord state.i1,
   mixColumnsWord state.i2, mixColumnsWord state.i3⟩

/-- The body of `InvMixColumns`, acting on one column word. -/
def invMixColumnsWord (spVal : Nat) : Nat :=
  let xtimeX := xtime spVal
  let xtimeXX := xtime xtimeX
  let xtimeXXX := xtime xtimeXX
  let xtime_x9 := xtimeXXX ^^^ spVal
  let xtime_xb := xtimeXXX ^^^ xtimeX ^^^ spVal
  let xtime_xd := xtimeXXX ^^^ xtimeXX ^^^ spVal
  let xtime_xe := xtimeXXX ^^^ xtimeXX ^^^ xtimeX
  let xtime_xb_r8 := xtime_xb >>> 8
  let xtime_xd_r16 := xtime_xd >>> 16
  let xtime_x9_l8 := xtime_x9 <<< 8 % 4294967296
  let xtime_xd_l16 := xtime_xd <<< 16 % 4294967296
  ((xtime_xe ^^^ xtime_xb_r8 ^^^ xtime_xd_r16 ^^^ (xtime_x9 >>> 24)) &&& 0x000000ff) |||
    ((xtime_x9_l8 ^^^ xtime_xe ^^^ xtime_xb_r8 ^^^ xtime_xd_r16) &&& 0x0000ff00) |||
    ((xtime_xd_l16 ^^^ xtime_x9_l8 ^^^ xtime_xe ^^^ xtime_xb_r8) &&& 0x00ff0000) |||
    (((xtime_xb <<< 24 % 4294967296) ^^^ xtime_xd_l16 ^^^ xtime_x9_l8 ^^^ xtime_xe) &&& 0xff000000)

/-- `InvMixColumns` of `aes.c`. -/
def InvMixColumns (state : state_t) : state_t :=
  ⟨invMixColumnsWord state.i0, invMixColumnsWord state.i1,
   invMixColumnsWord state.i2, invMixColumnsWord state.i3⟩

/-- The loop of `Cipher`: at `fuel = 0` the loop has reached `round = Nr`
(`SubBytes; ShiftRows; break`) and the trailing `AddRoundKey(Nr)` runs;
otherwise one full round `SubBytes; ShiftRows; MixColumns;
AddRoundKey(round)` runs and the loop continues with `round + 1`. -/
def cipherRounds (RoundKey : List Nat) : Nat → Nat → state_t → state_t
  | round, 0, s => AddRoundKey round (ShiftRows (SubBytes s)) RoundKey
  | round, fuel + 1, s =>
      cipherRounds RoundKey (round + 1) fuel
        (AddRoundKey round (MixColumns (ShiftRows (SubBytes s))) RoundKey)

/-- `Cipher` of `aes.c` (parameterized by the round count `Nr`):
`AddRoundKey(0)`, then the round loop starting at `round = 1`. -/
def Cipher (Nr : Nat) (state : state_t) (RoundKey : List Nat) : state_t :=
  cipherRounds RoundKey 1 (Nr - 1) (AddRoundKey 0 state RoundKey)

/-- The loop of `InvCipher`, indexed by the current `round` counting down:
`InvShiftRows; InvSubBytes; AddRoundKey(round)`, breaking at `round = 0`
and otherwise continuing with `InvMixColumns`. -/
def invCipherRounds (RoundKey : List Nat) : Nat → state_t → state_t
  | 0, s => AddRoundKey 0 (InvSubBytes (InvShiftRows s)) RoundKey
  | round + 1, s =>
      invCipherRounds RoundKey round
        (InvMixColumns
          (AddRoundKey (round + 1) (InvSubBytes (InvShiftRows s)) RoundKey))

/-- `InvCipher` of `aes.c`: `AddRoundKey(Nr)`, then the loop from
`round = Nr - 1` down to `0`. -/
def InvCipher (Nr : Nat) (state : state_t) (RoundKey : List Nat) : state_t :=
  invCipherRounds RoundKey (Nr - 1) (AddRoundKey Nr state RoundKey)

/-- The little-endian 32-bit word at word index `j` of a byte buffer (how
`memcpy` into a `uint32_t` array is seen through the word view). -/
def wordAt (buf : List Nat) (j : Nat) : Nat :=
  ofBytes (buf.getD (4 * j) 0) (buf.getD (4 * j + 1) 0)
    (buf.getD (4 * j + 2) 0) (buf.getD (4 * j + 3) 0)

/-- One iteration body of the `KeyExpansion` loop computing `temp` from
the previous word `RoundKey->i[i - 1]`: for `i % Nk == 0` the inner
`RotWord()` (`u8tmp = a[0]; i >>= 8; a[3] = u8tmp`), `Subword()` and the
`Rcon` XOR into `a[0]`; for `Nk == 8` (AES256) and `i % Nk == 4` a bare
`Subword()`. -/
def keTemp (Nk i prev : Nat) : Nat :=
  let temp := prev
  let temp :=
    if i % Nk == 0 then
      let u8tmp := byte0 temp
      let temp := temp >>> 8
      let temp := setByte3 temp u8tmp
      let temp := subWordBytes temp
      setByte0 temp (byte0 temp ^^^ getRconValue (i / Nk))
    else temp
  if Nk == 8 && i % Nk == 4 then subWordBytes temp else temp

/-- The `KeyExpansion` loop: while words are missing, append
`RoundKey->i[i - Nk] ^ temp` where `i` is the next index to fill. -/
def keRounds (Nk : Nat) (W : List Nat) : Nat → List Nat
  | 0 => W
  | fuel + 1 =>
      keRounds Nk
        (W ++ [W.getD (W.length - Nk) 0 ^^^ keTemp Nk W.length (W.getD (W.length - 1) 0)])
        fuel

/-- `KeyExpansion` of `aes.c`: the first `Nk` words are the key itself
(`memcpy(RoundKey, Key, 4 * Nk)`), then the loop fills indices
`Nk ≤ i < Nb * (Nr + 1)`. -/
def KeyExpansion (Nk Nr : Nat) (Key : List Nat) : List Nat :=
  keRounds Nk ((List.range Nk).map (wordAt Key)) (4 * (Nr + 1) - Nk)

/-- The `AES_ctx` structure of `aes.h` (per the spec: expanded round keys
plus a 16-byte IV/counter used by CBC and CTR). -/
structure AES_ctx where
  RoundKey : List Nat
  Iv : List Nat
deriving Repr, DecidableEq

/-- `AES_init_ctx_iv` of `aes.c`. -/
def AES_init_ctx_iv (Nk Nr : Nat) (key iv : List Nat) : AES_ctx :=
  ⟨KeyExpansion Nk Nr key, iv⟩

/-- `AES_ctx_set_iv` of `aes.c`. -/
def AES_ctx_set_iv (ctx : AES_ctx) (iv : List Nat) : AES_ctx :=
  ⟨ctx.RoundKey, iv⟩

/-- A 16-byte block read through the `state_t` word view (the cast
`(state_t*)buf`). -/
def loadState (buf : List Nat) : state_t :=
  ⟨wordAt buf 0, wordAt buf 1, wordAt buf 2, wordAt buf 3⟩

/-- The 16 bytes of a state (the inverse view of `loadState`). -/
def storeState (s : state_t) : List Nat :=
  [byte0 s.i0, byte1 s.i0, byte2 s.i0, byte3 s.i0,
   byte0 s.i1, byte1 s.i1, byte2 s.i1, byte3 s.i1,
   byte0 s.i2, byte1 s.i2, byte2 s.i2, byte3 s.i2,
   byte0 s.i3, byte1 s.i3, byte2 s.i3, byte3 s.i3]

/-- `AES_ECB_encrypt` of `aes.c`: `Cipher` on the 16-byte buffer. -/
def AES_ECB_encrypt (Nr : Nat) (ctx : AES_ctx) (buf : List Nat) : List Nat :=
  storeState (Cipher Nr (loadState buf) ctx.RoundKey)

/-- `AES_ECB_decrypt` of `aes.c`: `InvCipher` on the 16-byte buffer. -/
def AES_ECB_decrypt (Nr : Nat) (ctx : AES_ctx) (buf : List Nat) : List Nat :=
  storeState (InvCipher Nr (loadState buf) ctx.RoundKey)

/-- `XorWithIv` of `aes.c` on a 16-byte block. -/
def XorWithIv (buf Iv : List Nat) : List Nat :=
  List.zipWith (fun a b => a ^^^ b) buf Iv

/-- The loop of `AES_CBC_encrypt_buffer` (`for (i = 0; i < length; i +=
AES_BLOCKLEN)`), threading the running `Iv`.  A nonempty remainder
shorter than a block makes the C code read and write past the end of the
buffer, modelled as `none`. -/
def cbcEncLoop (Nr : Nat) (RoundKey : List Nat) :
    List Nat → List Nat → Option (List Nat × List Nat)
  | Iv, [] => some ([], Iv)
  | Iv, b :: rest =>
      if (b :: rest).length < 16 then none
      else
        let c := storeState (Cipher Nr (loadState (XorWithIv ((b :: rest).take 16) Iv)) RoundKey)
        match cbcEncLoop Nr RoundKey c ((b :: rest).drop 16) with
        | none => none
        | some (out, IvOut) => some (c ++ out, IvOut)
termination_by Iv buf => buf.length
decreasing_by simp; omega

/-- `AES_CBC_encrypt_buffer` of `aes.c` (the final `memcpy` stores the
running `Iv` back into the context). -/
def AES_CBC_encrypt_buffer (Nr : Nat) (ctx : AES_ctx) (buf : List Nat) :
    Option (List Nat × AES_ctx) :=
  match cbcEncLoop Nr ctx.RoundKey ctx.Iv buf with
  | none => none
  | some (out, iv) => some (out, ⟨ctx.RoundKey, iv⟩)

/-- The loop of `AES_CBC_decrypt_buffer`, threading `ctx->Iv`:
save the ciphertext block (`storeNextIv`), `InvCipher`, XOR with the old
`Iv`, and continue with the saved block as the next `Iv`. -/
def cbcDecLoop (Nr : Nat) (RoundKey : List Nat) :
    List Nat → List Nat → Option (List Nat × List Nat)
  | Iv, [] => some ([], Iv)
  | Iv, b :: rest =>
      if (b :: rest).length < 16 then none
      else
        let storeNextIv := (b :: rest).take 16
        let p := XorWithIv (storeState (InvCipher Nr (loadState storeNextIv) RoundKey)) Iv
        match cbcDecLoop Nr RoundKey storeNextIv ((b :: rest).drop 16) with
        | none => none
        | some (out, IvOut) => some (p ++ out, IvOut)
termination_by Iv buf => buf.length
decreasing_by simp; omega

/-- `AES_CBC_decrypt_buffer` of `aes.c`. -/
def AES_CBC_decrypt_buffer (Nr : Nat) (ctx : AES_ctx) (buf : List Nat) :
    Option (List Nat × AES_ctx) :=
  match cbcDecLoop Nr ctx.RoundKey ctx.Iv buf with
  | none => none
  | some (out, iv) => some (out, ⟨ctx.RoundKey, iv⟩)

/-- The counter-increment step of `AES_CTR_xcrypt_buffer`, written on the
reversed byte list (the C loop walks `bi` from `AES_BLOCKLEN - 1` down to
`0`, setting `255` bytes to `0` and `continue`-ing the carry, else adding
one and breaking). -/
def incBytesLE : List Nat → List Nat
  | [] => []
  | b :: rest => if b == 255 then 0 :: incBytesLE rest else (b + 1) :: rest

/-- Increment of the big-endian 16-byte counter `ctx->Iv`. -/
def IncIv (Iv : List Nat) : List Nat := (incBytesLE Iv.reverse).reverse

/-- The loop of `AES_CTR_xcrypt_buffer`: whenever `bi == 16` a fresh
keystream block `Cipher(Iv)` is produced and the counter is incremented;
each buffer byte is XORed with the matching keystream byte.  Chunked: one
iteration consumes up to 16 bytes. -/
def ctrLoop (Nr : Nat) (RoundKey : List Nat) :
    List Nat → List Nat → List Nat × List Nat
  | Iv, [] => ([], Iv)
  | Iv, b :: rest =>
      let buffer := storeState (Cipher Nr (loadState Iv) RoundKey)
      let r := ctrLoop Nr RoundKey (IncIv Iv) ((b :: rest).drop 16)
      (List.zipWith (fun x y => x ^^^ y) ((b :: rest).take 16) buffer ++ r.1, r.2)
termination_by Iv buf => buf.length
decreasing_by simp; omega

/-- `AES_CTR_xcrypt_buffer` of `aes.c` (same function for encryption and
decryption; the final counter persists in the context). -/
def AES_CTR_xcrypt_buffer (Nr : Nat) (ctx : AES_ctx) (buf : List Nat) :
    List Nat × AES_ctx :=
  let r := ctrLoop Nr ctx.RoundKey ctx.Iv buf
  (r.1, ⟨ctx.RoundKey, r.2⟩)

/-- The byte-lane action of `xtime` (analysis helper): `{02}` times a
byte in `GF(2 ^ 8)`, as computed by one lane of the word `xtime`. -/
def xtimeByte (b : Nat) : Nat :=
  (2 * (b % 128)) ^^^ (27 * (b.testBit 7).toNat)

/-- RotWord as the spec words it: `w[i-1]` rotated left by one byte
(`[a0,a1,a2,a3]` becomes `[a1,a2,a3,a0]`). -/
def RotWordSpec (w : Nat) : Nat :=
  ofBytes (byte1 w) (byte2 w) (byte3 w) (byte0 w)

/-- SubWord as the spec words it: the S-box applied to each byte. -/
def SubWordSpec (w : Nat) : Nat :=
  ofBytes (getSBoxValue (byte0 w)) (getSBoxValue (byte1 w))
    (getSBoxValue (byte2 w)) (getSBoxValue (byte3 w))

/-- The key-schedule temp word exactly as the spec (and the claim) word
it: rotate left one byte, S-box each byte, XOR the low byte with
`Rcon[i / Nk]` when `i % Nk = 0`; S-box only when `Nk = 8` and
`i % Nk = 4`; the previous word unchanged otherwise. -/
def keTempSpec (Nk i w : Nat) : Nat :=
  if i % Nk = 0 then
    let t := SubWordSpec (RotWordSpec w)
    ofBytes (byte0 t ^^^ getRconValue (i / Nk)) (byte1 t) (byte2 t) (byte3 t)
  else if Nk = 8 ∧ i % Nk = 4 then SubWordSpec w
  else w

/-- Multiplication by `{02}` as the spec words it: left-shift one bit,
and if the vacated top bit was 1, XOR with the reduction constant
`0x1b`. -/
def xtimeSpec (b : Nat) : Nat :=
  (2 * b) % 256 ^^^ (if b.testBit 7 then 27 else 0)

/-- Multiplication by `{03}` as `xtime` plus the original value. -/
def gmul3 (b : Nat) : Nat := xtimeSpec b ^^^ b

/-- The reference MixColumns of the spec on one column word: the column,
viewed as a 4-term polynomial over `GF(2 ^ 8)`, multiplied by the
circulant matrix `{02,03,01,01}`. -/
def mixColumnSpecWord (w : Nat) : Nat :=
  ofBytes
    (xtimeSpec (byte0 w) ^^^ gmul3 (byte1 w) ^^^ byte2 w ^^^ byte3 w)
    (xtimeSpec (byte1 w) ^^^ gmul3 (byte2 w) ^^^ byte3 w ^^^ byte0 w)
    (xtimeSpec (byte2 w) ^^^ gmul3 (byte3 w) ^^^ byte0 w ^^^ byte1 w)
    (xtimeSpec (byte3 w) ^^^ gmul3 (byte0 w) ^^^ byte1 w ^^^ byte2 w)

/-- The reference MixColumns of the spec on the whole state. -/
def MixColumnsSpec (state : state_t) : state_t :=
  ⟨mixColumnSpecWord state.i0, mixColumnSpecWord state.i1,
   mixColumnSpecWord state.i2, mixColumnSpecWord state.i3⟩

/-- One full middle round as the spec words it: `SubBytes`, `ShiftRows`,
`MixColumns`, `AddRoundKey(round)`. -/
def fullRoundSpec (RoundKey : List Nat) (s : state_t) (round : Nat) : state_t :=
  AddRoundKey round (MixColumns (ShiftRows (SubBytes s))) RoundKey

/-- The forward cipher as the claim words it: `AddRoundKey(0)`, the full
rounds `1 .. Nr - 1` in order, then a final `SubBytes`, `ShiftRows`,
`AddRoundKey(Nr)` with `MixColumns` omitted. -/
def CipherSpec (Nr : Nat) (state : state_t) (RoundKey : List Nat) : state_t :=
  AddRoundKey Nr
    (ShiftRows (SubBytes
      ((List.range' 1 (Nr - 1)).foldl (fullRoundSpec RoundKey)
        (AddRoundKey 0 state RoundKey)))) RoundKey

/-- The value of a byte string read as a big-endian integer. -/
def bytesBE (l : List Nat) : Nat :=
  l.foldl (fun acc b => 256 * acc + b) 0

/-- Modelled from the spec: `aes.c` has no buffer-level ECB driver (its
`AES_ECB_encrypt` handles exactly one 16-byte block), so a block-aligned
ECB buffer is processed as the spec describes the mode — each 16-byte
block encrypted independently by the single-block operation. -/
def ecbEncryptBlocks (Nr : Nat) (ctx : AES_ctx) : List Nat → List Nat
  | [] => []
  | b :: rest =>
      AES_ECB_encrypt Nr ctx ((b :: rest).take 16) ++
        ecbEncryptBlocks Nr ctx ((b :: rest).drop 16)
termination_by buf => buf.length
decreasing_by simp; omega

/-- Modelled from the spec: the matching buffer-level ECB decryption,
each 16-byte block decrypted independently by `AES_ECB_decrypt`. -/
def ecbDecryptBlocks (Nr : Nat) (ctx : AES_ctx) : List Nat → List Nat
  | [] => []
  | b :: rest =>
      AES_ECB_decrypt Nr ctx ((b :: rest).take 16) ++
        ecbDecryptBlocks Nr ctx ((b :: rest).drop 16)
termination_by buf => buf.length
decreasing_by simp; omega

/-- Sequential single-block calls of a fallible buffer operation,
threading the context (the right-hand side of the streaming-equivalence
claim for CBC). -/
def seqCallsOpt (f : AES_ctx → List Nat → Option (List Nat × AES_ctx))
    (ctx : AES_ctx) : List (List Nat) → Option (List Nat × AES_ctx)
  | [] => some ([], ctx)
  | b :: bs =>
      match f ctx b with
      | none => none
      | some (out, ctx1) =>
          match seqCallsOpt f ctx1 bs with
          | none => none
          | some (outs, ctx2) => some (out ++ outs, ctx2)

/-- Sequential single-block calls of a total buffer operation, threading
the context (the right-hand side of the streaming-equivalence claim for
CTR). -/
def seqCalls (f : AES_ctx → List Nat → List Nat × AES_ctx)
    (ctx : AES_ctx) : List (List Nat) → List Nat × AES_ctx
  | [] => ([], ctx)
  | b :: bs =>
      let r := f ctx b
      let r2 := seqCalls f r.2 bs
      (r.1 ++ r2.1, r2.2)

/-- Byte-lane value `{09} * b` as computed by `InvMixColumns`
(`xtime_x9 = xtimeXXX ^ spVal`). -/
def x9B (b : Nat) : Nat := xtimeByte (xtimeByte (xtimeByte b)) ^^^ b

/-- Byte-lane value `{0b} * b` (`xtime_xb = xtimeXXX ^ xtimeX ^ spVal`). -/
def xbB (b : Nat) : Nat :=
  xtimeByte (xtimeByte (xtimeByte b)) ^^^ xtimeByte b ^^^ b

/-- Byte-lane value `{0d} * b` (`xtime_xd = xtimeXXX ^ xtimeXX ^ spVal`). -/
def xdB (b : Nat) : Nat :=
  xtimeByte (xtimeByte (xtimeByte b)) ^^^ xtimeByte (xtimeByte b) ^^^ b

/-- Byte-lane value `{0e} * b` (`xtime_xe = xtimeXXX ^ xtimeXX ^ xtimeX`). -/
def xeB (b : Nat) : Nat :=
  xtimeByte (xtimeByte (xtimeByte b)) ^^^ xtimeByte (xtimeByte b) ^^^ xtimeByte b

/-- The value of a little-endian byte list (head is least significant);
analysis mirror of `bytesBE` on the reversed list. -/
def valLE : List Nat → Nat
  | [] => 0
  | b :: rest => b + 256 * valLE rest

/-! Infrastructure: byte decomposition of 32-bit words and the
distribution of the bitwise operations over it. -/

theorem ofBytes_lt {b0 b1 b2 b3 : Nat} (h0 : b0 < 256) (h1 : b1 < 256)
    (h2 : b2 < 256) (h3 : b3 < 256) : ofBytes b0 b1 b2 b3 < 4294967296 := by
  unfold ofBytes; omega

theorem byte0_lt (w : Nat) : byte0 w < 256 := Nat.mod_lt _ (by omega)

theorem byte1_lt (w : Nat) : byte1 w < 256 := Nat.mod_lt _ (by omega)

theorem byte2_lt (w : Nat) : byte2 w < 256 := Nat.mod_lt _ (by omega)

theorem byte3_lt (w : Nat) : byte3 w < 256 := Nat.mod_lt _ (by omega)

theorem byte0_ofBytes {b0 b1 b2 b3 : Nat} (h0 : b0 < 256) :
    byte0 (ofBytes b0 b1 b2 b3) = b0 := by
  unfold byte0 ofBytes; omega

theorem byte1_ofBytes {b0 b1 b2 b3 : Nat} (h0 : b0 < 256) (h1 : b1 < 256) :
    byte1 (ofBytes b0 b1 b2 b3) = b1 := by
  unfold byte1 ofBytes; omega

theorem byte2_ofBytes {b0 b1 b2 b3 : Nat} (h0 : b0 < 256) (h1 : b1 < 256)
    (h2 : b2 < 256) : byte2 (ofBytes b0 b1 b2 b3) = b2 := by
  unfold byte2 ofBytes; omega

theorem byte3_ofBytes {b0 b1 b2 b3 : Nat} (h0 : b0 < 256) (h1 : b1 < 256)
    (h2 : b2 < 256) (h3 : b3 < 256) : byte3 (ofBytes b0 b1 b2 b3) = b3 := by
  unfold byte3 ofBytes; omega

theorem ofBytes_eta {w : Nat} (h : w < 4294967296) :
    ofBytes (byte0 w) (byte1 w) (byte2 w) (byte3 w) = w := by
  unfold ofBytes byte0 byte1 byte2 byte3; omega

theorem and_chunk {i b d : Nat} (a c : Nat) (hb : b < 2 ^ i) (hd : d < 2 ^ i) :
    (2 ^ i * a + b) &&& (2 ^ i * c + d) = 2 ^ i * (a &&& c) + (b &&& d) := by
  have hbd : b &&& d < 2 ^ i := Nat.lt_of_le_of_lt (Nat.and_le_left) hb
  apply Nat.eq_of_testBit_eq
  intro j
  simp only [Nat.testBit_mul_pow_two_add _ hb, Nat.testBit_mul_pow_two_add _ hd,
    Nat.testBit_mul_pow_two_add _ hbd, Nat.testBit_and]
  by_cases hj : j < i <;> simp [hj]

theorem or_chunk {i b d : Nat} (a c : Nat) (hb : b < 2 ^ i) (hd : d < 2 ^ i) :
    (2 ^ i * a + b) ||| (2 ^ i * c + d) = 2 ^ i * (a ||| c) + (b ||| d) := by
  have hbd : b ||| d < 2 ^ i := Nat.or_lt_two_pow hb hd
  apply Nat.eq_of_testBit_eq
  intro j
  simp only [Nat.testBit_mul_pow_two_add _ hb, Nat.testBit_mul_pow_two_add _ hd,
    Nat.testBit_mul_pow_two_add _ hbd, Nat.testBit_or]
  by_cases hj : j < i <;> simp [hj]

theorem xor_chunk {i b d : Nat} (a c : Nat) (hb : b < 2 ^ i) (hd : d < 2 ^ i) :
    (2 ^ i * a + b) ^^^ (2 ^ i * c + d) = 2 ^ i * (a ^^^ c) + (b ^^^ d) := by
  have hbd : b ^^^ d < 2 ^ i := Nat.xor_lt_two_pow hb hd
  apply Nat.eq_of_testBit_eq
  intro j
  simp only [Nat.testBit_mul_pow_two_add _ hb, Nat.testBit_mul_pow_two_add _ hd,
    Nat.testBit_mul_pow_two_add _ hbd, Nat.testBit_xor]
  by_cases hj : j < i <;> simp [hj]

theorem ofBytes_split (b0 b1 b2 b3 : Nat) :
    ofBytes b0 b1 b2 b3 = 2 ^ 8 * (b1 + 256 * (b2 + 256 * b3)) + b0 := by
  unfold ofBytes; ring

theorem ofBytes_and {a0 a1 a2 a3 b0 b1 b2 b3 : Nat} (ha0 : a0 < 256)
    (ha1 : a1 < 256) (ha2 : a2 < 256) (hb0 : b0 < 256) (hb1 : b1 < 256)
    (hb2 : b2 < 256) :
    ofBytes a0 a1 a2 a3 &&& ofBytes b0 b1 b2 b3 =
      ofBytes (a0 &&& b0) (a1 &&& b1) (a2 &&& b2) (a3 &&& b3) := by
  have h256 : (256 : Nat) = 2 ^ 8 := by norm_num
  rw [ofBytes_split a0 a1 a2 a3, ofBytes_split b0 b1 b2 b3,
    and_chunk _ _ (by omega) (by omega)]
  rw [show (a1 + 256 * (a2 + 256 * a3)) = 2 ^ 8 * (a2 + 256 * a3) + a1 by ring,
    show (b1 + 256 * (b2 + 256 * b3)) = 2 ^ 8 * (b2 + 256 * b3) + b1 by ring,
    and_chunk _ _ (by omega) (by omega)]
  rw [show (a2 + 256 * a3) = 2 ^ 8 * a3 + a2 by ring,
    show (b2 + 256 * b3) = 2 ^ 8 * b3 + b2 by ring,
    and_chunk _ _ (by omega) (by omega)]
  unfold ofBytes; ring

theorem ofBytes_or {a0 a1 a2 a3 b0 b1 b2 b3 : Nat} (ha0 : a0 < 256)
    (ha1 : a1 < 256) (ha2 : a2 < 256) (hb0 : b0 < 256) (hb1 : b1 < 256)
    (hb2 : b2 < 256) :
    ofBytes a0 a1 a2 a3 ||| ofBytes b0 b1 b2 b3 =
      ofBytes (a0 ||| b0) (a1 ||| b1) (a2 ||| b2) (a3 ||| b3) := by
  rw [ofBytes_split a0 a1 a2 a3, ofBytes_split b0 b1 b2 b3,
    or_chunk _ _ (by omega) (by omega)]
  rw [show (a1 + 256 * (a2 + 256 * a3)) = 2 ^ 8 * (a2 + 256 * a3) + a1 by ring,
    show (b1 + 256 * (b2 + 256 * b3)) = 2 ^ 8 * (b2 + 256 * b3) + b1 by ring,
    or_chunk _ _ (by omega) (by omega)]
  rw [show (a2 + 256 * a3) = 2 ^ 8 * a3 + a2 by ring,
    show (b2 + 256 * b3) = 2 ^ 8 * b3 + b2 by ring,
    or_chunk _ _ (by omega) (by omega)]
  unfold ofBytes; ring

theorem ofBytes_xor {a0 a1 a2 a3 b0 b1 b2 b3 : Nat} (ha0 : a0 < 256)
    (ha1 : a1 < 256) (ha2 : a2 < 256) (hb0 : b0 < 256) (hb1 : b1 < 256)
    (hb2 : b2 < 256) :
    ofBytes a0 a1 a2 a3 ^^^ ofBytes b0 b1 b2 b3 =
      ofBytes (a0 ^^^ b0) (a1 ^^^ b1) (a2 ^^^ b2) (a3 ^^^ b3) := by
  rw [ofBytes_split a0 a1 a2 a3, ofBytes_split b0 b1 b2 b3,
    xor_chunk _ _ (by omega) (by omega)]
  rw [show (a1 + 256 * (a2 + 256 * a3)) = 2 ^ 8 * (a2 + 256 * a3) + a1 by ring,
    show (b1 + 256 * (b2 + 256 * b3)) = 2 ^ 8 * (b2 + 256 * b3) + b1 by ring,
    xor_chunk _ _ (by omega) (by omega)]
  rw [show (a2 + 256 * a3) = 2 ^ 8 * a3 + a2 by ring,
    show (b2 + 256 * b3) = 2 ^ 8 * b3 + b2 by ring,
    xor_chunk _ _ (by omega) (by omega)]
  unfold ofBytes; ring

theorem and_255 (x : Nat) : x &&& 255 = x % 256 := by
  have : (255 : Nat) = 2 ^ 8 - 1 := by norm_num
  rw [this, Nat.and_pow_two_sub_one_eq_mod]

theorem and_127 (x : Nat) : x &&& 127 = x % 128 := by
  have : (127 : Nat) = 2 ^ 7 - 1 := by norm_num
  rw [this, Nat.and_pow_two_sub_one_eq_mod]

theorem and_128 (x : Nat) : x &&& 128 = 128 * (x.testBit 7).toNat := by
  have : (128 : Nat) = 2 ^ 7 := by norm_num
  rw [this, Nat.and_two_pow, Nat.mul_comm]

theorem mod_256_small {x : Nat} (h : x < 256) : x % 256 = x := Nat.mod_eq_of_lt h

theorem or_assemble {x0 x1 x2 x3 : Nat} (h0 : x0 < 256) (h1 : x1 < 256)
    (h2 : x2 < 256) :
    x0 ||| x1 <<< 8 ||| x2 <<< 16 ||| x3 <<< 24 = ofBytes x0 x1 x2 x3 := by
  have e1 : x1 <<< 8 = 2 ^ 8 * x1 := by rw [Nat.shiftLeft_eq]; ring
  have e2 : x2 <<< 16 = 2 ^ 16 * x2 := by rw [Nat.shiftLeft_eq]; ring
  have e3 : x3 <<< 24 = 2 ^ 24 * x3 := by rw [Nat.shiftLeft_eq]; ring
  have s1 : x0 ||| x1 <<< 8 = 2 ^ 8 * x1 + x0 := by
    rw [e1, Nat.or_comm, ← Nat.mul_add_lt_is_or (by simpa using h0)]
  have s2 : (2 ^ 8 * x1 + x0) ||| x2 <<< 16 = 2 ^ 8 * (2 ^ 8 * x2 + x1) + x0 := by
    rw [e2, show (2 ^ 16 * x2 : Nat) = 2 ^ 8 * (2 ^ 8 * x2) + 0 by ring,
      or_chunk _ _ (by omega) (by omega)]
    have : x1 ||| 256 * x2 = 256 * x2 + x1 := by
      rw [show (256 : Nat) * x2 = 2 ^ 8 * x2 by norm_num, Nat.or_comm,
        ← Nat.mul_add_lt_is_or (by simpa using h1)]
    simp [this]
  have s3 : (2 ^ 8 * (2 ^ 8 * x2 + x1) + x0) ||| x3 <<< 24 =
      2 ^ 8 * (2 ^ 8 * (2 ^ 8 * x3 + x2) + x1) + x0 := by
    rw [e3, show (2 ^ 24 * x3 : Nat) = 2 ^ 8 * (2 ^ 8 * (2 ^ 8 * x3) + 0) + 0 by ring,
      or_chunk _ _ (by omega) (by omega),
      or_chunk _ _ (by omega) (by omega)]
    have : x2 ||| 256 * x3 = 256 * x3 + x2 := by
      rw [show (256 : Nat) * x3 = 2 ^ 8 * x3 by norm_num, Nat.or_comm,
        ← Nat.mul_add_lt_is_or (by simpa using h2)]
    simp [this]
  rw [s1, s2, s3]
  unfold ofBytes
  ring

/-! Facts about the lookup tables and byte-level helpers. -/

theorem getD_lt_of_all {l : List Nat} {n m : Nat} (h : ∀ x ∈ l, x < m)
    (hm : 0 < m) : l.getD n 0 < m := by
  induction l generalizing n with
  | nil => simpa [List.getD] using hm
  | cons x t ih =>
      cases n with
      | zero => simpa [List.getD] using h x (by simp)
      | succ k =>
          simpa [List.getD] using ih (fun y hy => h y (by simp [hy])) (n := k)

set_option maxRecDepth 2000 in
theorem sbox_all_bytes : ∀ x ∈ sbox, x < 256 := by decide

set_option maxRecDepth 2000 in
theorem rsbox_all_bytes : ∀ x ∈ rsbox, x < 256 := by decide

theorem Rcon_all_bytes : ∀ x ∈ Rcon, x < 256 := by decide

theorem getSBoxValue_lt (n : Nat) : getSBoxValue n < 256 :=
  getD_lt_of_all sbox_all_bytes (by omega)

theorem getSBoxInvert_lt (n : Nat) : getSBoxInvert n < 256 :=
  getD_lt_of_all rsbox_all_bytes (by omega)

theorem getRconValue_lt (n : Nat) : getRconValue n < 256 :=
  getD_lt_of_all Rcon_all_bytes (by omega)

/-! Shifts and rotations on byte-decomposed words. -/

theorem ofBytes_shr8 {b0 b1 b2 b3 : Nat} (h0 : b0 < 256) :
    ofBytes b0 b1 b2 b3 >>> 8 = ofBytes b1 b2 b3 0 := by
  rw [Nat.shiftRight_eq_div_pow, show (2 : Nat) ^ 8 = 256 by norm_num]
  unfold ofBytes; omega

theorem ofBytes_shr16 {b0 b1 b2 b3 : Nat} (h0 : b0 < 256) (h1 : b1 < 256) :
    ofBytes b0 b1 b2 b3 >>> 16 = ofBytes b2 b3 0 0 := by
  rw [Nat.shiftRight_eq_div_pow, show (2 : Nat) ^ 16 = 65536 by norm_num]
  unfold ofBytes; omega

theorem ofBytes_shr24 {b0 b1 b2 b3 : Nat} (h0 : b0 < 256) (h1 : b1 < 256)
    (h2 : b2 < 256) : ofBytes b0 b1 b2 b3 >>> 24 = ofBytes b3 0 0 0 := by
  rw [Nat.shiftRight_eq_div_pow, show (2 : Nat) ^ 24 = 16777216 by norm_num]
  unfold ofBytes; omega

theorem ofBytes_shl8_mod {b0 b1 b2 b3 : Nat} (h0 : b0 < 256) (h1 : b1 < 256)
    (h2 : b2 < 256) :
    ofBytes b0 b1 b2 b3 <<< 8 % 4294967296 = ofBytes 0 b0 b1 b2 := by
  rw [Nat.shiftLeft_eq, show (2 : Nat) ^ 8 = 256 by norm_num]
  unfold ofBytes; omega

theorem ofBytes_shl16_mod {b0 b1 b2 b3 : Nat} (h0 : b0 < 256) (h1 : b1 < 256) :
    ofBytes b0 b1 b2 b3 <<< 16 % 4294967296 = ofBytes 0 0 b0 b1 := by
  rw [Nat.shiftLeft_eq, show (2 : Nat) ^ 16 = 65536 by norm_num]
  unfold ofBytes; omega

theorem ofBytes_shl24_mod {b0 b1 b2 b3 : Nat} (h0 : b0 < 256) :
    ofBytes b0 b1 b2 b3 <<< 24 % 4294967296 = ofBytes 0 0 0 b0 := by
  rw [Nat.shiftLeft_eq, show (2 : Nat) ^ 24 = 16777216 by norm_num]
  unfold ofBytes; omega

/-! Bridging: the word-level operations of `aes.c` act byte-lane-wise. -/

theorem subWordBytes_eq_spec (w : Nat) : subWordBytes w = SubWordSpec w := by
  unfold subWordBytes SubWordSpec
  exact or_assemble (getSBoxValue_lt _) (getSBoxValue_lt _) (getSBoxValue_lt _)

theorem subWordBytes_ofBytes {a b c d : Nat} (ha : a < 256) (hb : b < 256)
    (hc : c < 256) (hd : d < 256) :
    subWordBytes (ofBytes a b c d) =
      ofBytes (getSBoxValue a) (getSBoxValue b) (getSBoxValue c) (getSBoxValue d) := by
  rw [subWordBytes_eq_spec]
  unfold SubWordSpec
  rw [byte0_ofBytes ha, byte1_ofBytes ha hb, byte2_ofBytes ha hb hc,
    byte3_ofBytes ha hb hc hd]

theorem invSubWordBytes_ofBytes {a b c d : Nat} (ha : a < 256) (hb : b < 256)
    (hc : c < 256) (hd : d < 256) :
    invSubWordBytes (ofBytes a b c d) =
      ofBytes (getSBoxInvert a) (getSBoxInvert b) (getSBoxInvert c) (getSBoxInvert d) := by
  unfold invSubWordBytes
  rw [byte0_ofBytes ha, byte1_ofBytes ha hb, byte2_ofBytes ha hb hc,
    byte3_ofBytes ha hb hc hd]
  exact or_assemble (getSBoxInvert_lt _) (getSBoxInvert_lt _) (getSBoxInvert_lt _)

theorem lt256_0 : (0 : Nat) < 256 := by norm_num

theorem lt256_255 : (255 : Nat) < 256 := by norm_num

theorem mask_FF00 : (65280 : Nat) = ofBytes 0 255 0 0 := by unfold ofBytes; norm_num

theorem mask_FFFF00FF : (4294902015 : Nat) = ofBytes 255 0 255 255 := by
  unfold ofBytes; norm_num

theorem mask_FF0000 : (16711680 : Nat) = ofBytes 0 0 255 0 := by
  unfold ofBytes; norm_num

theorem mask_FF00FFFF : (4278255615 : Nat) = ofBytes 255 255 0 255 := by
  unfold ofBytes; norm_num

theorem mask_FF000000 : (4278190080 : Nat) = ofBytes 0 0 0 255 := by
  unfold ofBytes; norm_num

theorem mask_00FFFFFF : (16777215 : Nat) = ofBytes 255 255 255 0 := by
  unfold ofBytes; norm_num

theorem ShiftRows_ofBytes {a0 a1 a2 a3 b0 b1 b2 b3 c0 c1 c2 c3 d0 d1 d2 d3 : Nat}
    (ha0 : a0 < 256) (ha1 : a1 < 256) (ha2 : a2 < 256) (ha3 : a3 < 256)
    (hb0 : b0 < 256) (hb1 : b1 < 256) (hb2 : b2 < 256) (hb3 : b3 < 256)
    (hc0 : c0 < 256) (hc1 : c1 < 256) (hc2 : c2 < 256) (hc3 : c3 < 256)
    (hd0 : d0 < 256) (hd1 : d1 < 256) (hd2 : d2 < 256) (hd3 : d3 < 256) :
    ShiftRows ⟨ofBytes a0 a1 a2 a3, ofBytes b0 b1 b2 b3,
               ofBytes c0 c1 c2 c3, ofBytes d0 d1 d2 d3⟩ =
      ⟨ofBytes a0 b1 c2 d3, ofBytes b0 c1 d2 a3,
       ofBytes c0 d1 a2 b3, ofBytes d0 a1 b2 c3⟩ := by
  simp only [ShiftRows, mask_FF00, mask_FFFF00FF, mask_FF0000, mask_FF00FFFF,
    mask_FF000000, mask_00FFFFFF]
  simp only [ofBytes_and, ofBytes_or, ha0, ha1, ha2, ha3, hb0, hb1, hb2, hb3,
    hc0, hc1, hc2, hc3, hd0, hd1, hd2, hd3, and_255, mod_256_small,
    Nat.and_zero, Nat.zero_and, Nat.or_zero, Nat.zero_or, lt256_0, lt256_255]

theorem InvShiftRows_ofBytes {a0 a1 a2 a3 b0 b1 b2 b3 c0 c1 c2 c3 d0 d1 d2 d3 : Nat}
    (ha0 : a0 < 256) (ha1 : a1 < 256) (ha2 : a2 < 256) (ha3 : a3 < 256)
    (hb0 : b0 < 256) (hb1 : b1 < 256) (hb2 : b2 < 256) (hb3 : b3 < 256)
    (hc0 : c0 < 256) (hc1 : c1 < 256) (hc2 : c2 < 256) (hc3 : c3 < 256)
    (hd0 : d0 < 256) (hd1 : d1 < 256) (hd2 : d2 < 256) (hd3 : d3 < 256) :
    InvShiftRows ⟨ofBytes a0 a1 a2 a3, ofBytes b0 b1 b2 b3,
                  ofBytes c0 c1 c2 c3, ofBytes d0 d1 d2 d3⟩ =
      ⟨ofBytes a0 d1 c2 b3, ofBytes b0 a1 d2 c3,
       ofBytes c0 b1 a2 d3, ofBytes d0 c1 b2 a3⟩ := by
  simp only [InvShiftRows, mask_FF00, mask_FFFF00FF, mask_FF0000, mask_FF00FFFF,
    mask_FF000000, mask_00FFFFFF]
  simp only [ofBytes_and, ofBytes_or, ha0, ha1, ha2, ha3, hb0, hb1, hb2, hb3,
    hc0, hc1, hc2, hc3, hd0, hd1, hd2, hd3, and_255, mod_256_small,
    Nat.and_zero, Nat.zero_and, Nat.or_zero, Nat.zero_or, lt256_0, lt256_255]

theorem xtimeByte_lt (b : Nat) : xtimeByte b < 256 := by
  unfold xtimeByte
  have h1 : 2 * (b % 128) < 256 := by omega
  have h2 : 27 * (b.testBit 7).toNat < 256 := by
    rcases b.testBit 7 <;> simp
  exact Nat.xor_lt_two_pow (n := 8) (by simpa using h1) (by simpa using h2)

theorem mask_7F7F7F7F : (2139062143 : Nat) = ofBytes 127 127 127 127 := by
  unfold ofBytes; norm_num

theorem mask_80808080 : (2155905152 : Nat) = ofBytes 128 128 128 128 := by
  unfold ofBytes; norm_num

theorem and_mod128 {x : Nat} (h : x < 256) : x &&& 127 = x % 128 := and_127 x

theorem xtime_ofBytes {a b c d : Nat} (ha : a < 256) (hb : b < 256)
    (hc : c < 256) (hd : d < 256) :
    xtime (ofBytes a b c d) =
      ofBytes (xtimeByte a) (xtimeByte b) (xtimeByte c) (xtimeByte d) := by
  unfold xtime
  rw [mask_7F7F7F7F, mask_80808080,
    ofBytes_and ha hb hc (by norm_num) (by norm_num) (by norm_num),
    ofBytes_and ha hb hc (by norm_num) (by norm_num) (by norm_num)]
  simp only [and_127, and_128]
  rw [Nat.shiftLeft_eq, show (2 : Nat) ^ 1 = 2 by norm_num]
  rw [show ofBytes (a % 128) (b % 128) (c % 128) (d % 128) * 2 =
    ofBytes (2 * (a % 128)) (2 * (b % 128)) (2 * (c % 128)) (2 * (d % 128)) by
      unfold ofBytes; ring]
  rw [Nat.shiftRight_eq_div_pow, show (2 : Nat) ^ 7 = 128 by norm_num]
  rw [show ofBytes (128 * (a.testBit 7).toNat) (128 * (b.testBit 7).toNat)
        (128 * (c.testBit 7).toNat) (128 * (d.testBit 7).toNat) / 128 =
      ofBytes (a.testBit 7).toNat (b.testBit 7).toNat (c.testBit 7).toNat
        (d.testBit 7).toNat by unfold ofBytes; omega]
  rw [show ofBytes (a.testBit 7).toNat (b.testBit 7).toNat (c.testBit 7).toNat
        (d.testBit 7).toNat * 27 =
      ofBytes (27 * (a.testBit 7).toNat) (27 * (b.testBit 7).toNat)
        (27 * (c.testBit 7).toNat) (27 * (d.testBit 7).toNat) by
      unfold ofBytes; ring]
  rw [ofBytes_xor (by omega) (by omega) (by omega)
    (by rcases a.testBit 7 <;> simp) (by rcases b.testBit 7 <;> simp)
    (by rcases c.testBit 7 <;> simp)]
  rfl

theorem xor_byte_lt {x y : Nat} (hx : x < 256) (hy : y < 256) : x ^^^ y < 256 :=
  Nat.xor_lt_two_pow (n := 8) (by simpa using hx) (by simpa using hy)

theorem mixColumnsWord_ofBytes {a b c d : Nat} (ha : a < 256) (hb : b < 256)
    (hc : c < 256) (hd : d < 256) :
    mixColumnsWord (ofBytes a b c d) =
      ofBytes (xtimeByte (a ^^^ b) ^^^ d ^^^ c ^^^ b)
        (xtimeByte (b ^^^ c) ^^^ a ^^^ d ^^^ c)
        (xtimeByte (c ^^^ d) ^^^ b ^^^ a ^^^ d)
        (xtimeByte (d ^^^ a) ^^^ c ^^^ b ^^^ a) := by
  unfold mixColumnsWord
  rw [ofBytes_shr8 ha, ofBytes_shl24_mod ha,
    ofBytes_or hb hc hd lt256_0 lt256_0 lt256_0,
    ofBytes_shl8_mod ha hb hc, ofBytes_shr24 ha hb hc,
    ofBytes_or lt256_0 ha hb hd lt256_0 lt256_0,
    ofBytes_shl16_mod ha hb, ofBytes_shr16 ha hb,
    ofBytes_or lt256_0 lt256_0 ha hc hd lt256_0]
  simp only [Nat.or_zero, Nat.zero_or]
  rw [ofBytes_xor ha hb hc hb hc hd,
    xtime_ofBytes (xor_byte_lt ha hb) (xor_byte_lt hb hc) (xor_byte_lt hc hd)
      (xor_byte_lt hd ha),
    ofBytes_xor (xtimeByte_lt _) (xtimeByte_lt _) (xtimeByte_lt _) hd ha hb,
    ofBytes_xor (xor_byte_lt (xtimeByte_lt _) hd) (xor_byte_lt (xtimeByte_lt _) ha)
      (xor_byte_lt (xtimeByte_lt _) hb) hc hd ha]
  rw [ofBytes_or lt256_0 lt256_0 lt256_0 hb hc hd]
  simp only [Nat.or_zero, Nat.zero_or]
  rw [ofBytes_xor (xor_byte_lt (xor_byte_lt (xtimeByte_lt _) hd) hc)
      (xor_byte_lt (xor_byte_lt (xtimeByte_lt _) ha) hd)
      (xor_byte_lt (xor_byte_lt (xtimeByte_lt _) hb) ha) hb hc hd]

theorem two_mul_xor (u v : Nat) : 2 * (u ^^^ v) = 2 * u ^^^ 2 * v := by
  have e : ∀ x : Nat, 2 * x = x <<< 1 := fun x => by
    rw [Nat.shiftLeft_eq]; ring
  rw [e, e, e]
  apply Nat.eq_of_testBit_eq
  intro j
  simp [Nat.testBit_shiftLeft, Nat.testBit_xor]
  by_cases hj : 1 ≤ j <;> simp [hj]

theorem xtimeByte_xor (x y : Nat) :
    xtimeByte (x ^^^ y) = xtimeByte x ^^^ xtimeByte y := by
  unfold xtimeByte
  have hmod : (x ^^^ y) % 128 = x % 128 ^^^ y % 128 := by
    rw [← and_127, ← and_127, ← and_127, Nat.and_xor_distrib_right]
  have hbit : ((x ^^^ y).testBit 7) = ((x.testBit 7).xor (y.testBit 7)) := by
    simp [Nat.testBit_xor]
  have h27 : ∀ p q : Bool, 27 * ((p.xor q).toNat) =
      27 * p.toNat ^^^ 27 * q.toNat := by decide
  rw [hmod, two_mul_xor, hbit, h27]
  rw [Nat.xor_assoc, Nat.xor_assoc]
  congr 1
  rw [← Nat.xor_assoc, ← Nat.xor_assoc]
  congr 1
  rw [Nat.xor_comm]

theorem ofBytes_and_mask0 {u0 u1 u2 u3 : Nat} (h0 : u0 < 256) (h1 : u1 < 256)
    (h2 : u2 < 256) :
    ofBytes u0 u1 u2 u3 &&& 255 = ofBytes u0 0 0 0 := by
  rw [show (255 : Nat) = ofBytes 255 0 0 0 by unfold ofBytes; norm_num]
  rw [ofBytes_and h0 h1 h2 lt256_255 lt256_0 lt256_0]
  simp [and_255, mod_256_small h0]

theorem ofBytes_and_mask1 {u0 u1 u2 u3 : Nat} (h0 : u0 < 256) (h1 : u1 < 256)
    (h2 : u2 < 256) :
    ofBytes u0 u1 u2 u3 &&& 65280 = ofBytes 0 u1 0 0 := by
  rw [mask_FF00, ofBytes_and h0 h1 h2 lt256_0 lt256_255 lt256_0]
  simp [and_255, mod_256_small h1]

theorem ofBytes_and_mask2 {u0 u1 u2 u3 : Nat} (h0 : u0 < 256) (h1 : u1 < 256)
    (h2 : u2 < 256) :
    ofBytes u0 u1 u2 u3 &&& 16711680 = ofBytes 0 0 u2 0 := by
  rw [mask_FF0000, ofBytes_and h0 h1 h2 lt256_0 lt256_0 lt256_255]
  simp [and_255, mod_256_small h2]

theorem ofBytes_and_mask3 {u0 u1 u2 u3 : Nat} (h0 : u0 < 256) (h1 : u1 < 256)
    (h2 : u2 < 256) (h3 : u3 < 256) :
    ofBytes u0 u1 u2 u3 &&& 4278190080 = ofBytes 0 0 0 u3 := by
  rw [mask_FF000000, ofBytes_and h0 h1 h2 lt256_0 lt256_0 lt256_0]
  simp [and_255, mod_256_small h3]

theorem xor_left_comm (a b c : Nat) : a ^^^ (b ^^^ c) = b ^^^ (a ^^^ c) := by
  rw [← Nat.xor_assoc, Nat.xor_comm a b, Nat.xor_assoc]


/-! Unconditional byte-extraction lemmas: reading one byte lane commutes
with the bitwise operations of `aes.c`. -/

theorem byte0_shift (x : Nat) : byte0 x = x &&& 255 := by
  rw [and_255]; rfl

theorem byte1_shift (x : Nat) : byte1 x = x >>> 8 &&& 255 := by
  rw [and_255, Nat.shiftRight_eq_div_pow]; rfl

theorem byte2_shift (x : Nat) : byte2 x = x >>> 16 &&& 255 := by
  rw [and_255, Nat.shiftRight_eq_div_pow]; rfl

theorem byte3_shift (x : Nat) : byte3 x = x >>> 24 &&& 255 := by
  rw [and_255, Nat.shiftRight_eq_div_pow]; rfl

theorem shiftRight_xor (x y k : Nat) : (x ^^^ y) >>> k = x >>> k ^^^ y >>> k := by
  apply Nat.eq_of_testBit_eq
  intro i
  simp [Nat.testBit_shiftRight, Nat.testBit_xor]

theorem byte0_xor (x y : Nat) : byte0 (x ^^^ y) = byte0 x ^^^ byte0 y := by
  simp [byte0_shift, Nat.and_xor_distrib_right]

theorem byte1_xor (x y : Nat) : byte1 (x ^^^ y) = byte1 x ^^^ byte1 y := by
  simp [byte1_shift, shiftRight_xor, Nat.and_xor_distrib_right]

theorem byte2_xor (x y : Nat) : byte2 (x ^^^ y) = byte2 x ^^^ byte2 y := by
  simp [byte2_shift, shiftRight_xor, Nat.and_xor_distrib_right]

theorem byte3_xor (x y : Nat) : byte3 (x ^^^ y) = byte3 x ^^^ byte3 y := by
  simp [byte3_shift, shiftRight_xor, Nat.and_xor_distrib_right]

theorem and_255_byte (x : Nat) : x &&& 255 = byte0 x := (byte0_shift x).symm

theorem and_FF00_byte (x : Nat) : x &&& 65280 = byte1 x <<< 8 := by
  rw [byte1_shift]
  apply Nat.eq_of_testBit_eq
  intro i
  rw [show (65280 : Nat) = 255 <<< 8 by rw [Nat.shiftLeft_eq],
    show (255 : Nat) = 2 ^ 8 - 1 by norm_num]
  simp only [Nat.testBit_and, Nat.testBit_shiftLeft, Nat.testBit_shiftRight,
    Nat.testBit_two_pow_sub_one, ge_iff_le]
  by_cases h8 : 8 ≤ i
  · rw [show 8 + (i - 8) = i by omega]
    by_cases hi : i - 8 < 8 <;> simp [h8, hi, Bool.and_comm]
  · simp [h8]

theorem and_FF0000_byte (x : Nat) : x &&& 16711680 = byte2 x <<< 16 := by
  rw [byte2_shift]
  apply Nat.eq_of_testBit_eq
  intro i
  rw [show (16711680 : Nat) = 255 <<< 16 by rw [Nat.shiftLeft_eq],
    show (255 : Nat) = 2 ^ 8 - 1 by norm_num]
  simp only [Nat.testBit_and, Nat.testBit_shiftLeft, Nat.testBit_shiftRight,
    Nat.testBit_two_pow_sub_one, ge_iff_le]
  by_cases h8 : 16 ≤ i
  · rw [show 16 + (i - 16) = i by omega]
    by_cases hi : i - 16 < 8 <;> simp [h8, hi, Bool.and_comm]
  · simp [h8]

theorem and_FF000000_byte (x : Nat) : x &&& 4278190080 = byte3 x <<< 24 := by
  rw [byte3_shift]
  apply Nat.eq_of_testBit_eq
  intro i
  rw [show (4278190080 : Nat) = 255 <<< 24 by rw [Nat.shiftLeft_eq],
    show (255 : Nat) = 2 ^ 8 - 1 by norm_num]
  simp only [Nat.testBit_and, Nat.testBit_shiftLeft, Nat.testBit_shiftRight,
    Nat.testBit_two_pow_sub_one, ge_iff_le]
  by_cases h8 : 24 ≤ i
  · rw [show 24 + (i - 24) = i by omega]
    by_cases hi : i - 24 < 8 <;> simp [h8, hi, Bool.and_comm]
  · simp [h8]

theorem byte0_shr8 (x : Nat) : byte0 (x >>> 8) = byte1 x := by
  rw [Nat.shiftRight_eq_div_pow]; unfold byte0 byte1; norm_num

theorem byte0_shr16 (x : Nat) : byte0 (x >>> 16) = byte2 x := by
  rw [Nat.shiftRight_eq_div_pow]; unfold byte0 byte2; norm_num

theorem byte0_shr24 (x : Nat) : byte0 (x >>> 24) = byte3 x := by
  rw [Nat.shiftRight_eq_div_pow]; unfold byte0 byte3; norm_num

theorem byte1_shr8 (x : Nat) : byte1 (x >>> 8) = byte2 x := by
  rw [Nat.shiftRight_eq_div_pow]; unfold byte1 byte2; norm_num
  rw [Nat.div_div_eq_div_mul]

theorem byte1_shr16 (x : Nat) : byte1 (x >>> 16) = byte3 x := by
  rw [Nat.shiftRight_eq_div_pow]; unfold byte1 byte3; norm_num
  rw [Nat.div_div_eq_div_mul]

theorem byte2_shr8 (x : Nat) : byte2 (x >>> 8) = byte3 x := by
  rw [Nat.shiftRight_eq_div_pow]; unfold byte2 byte3; norm_num
  rw [Nat.div_div_eq_div_mul]

theorem byte1_shl8m (x : Nat) : byte1 (x <<< 8 % 4294967296) = byte0 x := by
  rw [Nat.shiftLeft_eq]; unfold byte1 byte0; norm_num; omega

theorem byte2_shl8m (x : Nat) : byte2 (x <<< 8 % 4294967296) = byte1 x := by
  rw [Nat.shiftLeft_eq]; unfold byte2 byte1; norm_num; omega

theorem byte3_shl8m (x : Nat) : byte3 (x <<< 8 % 4294967296) = byte2 x := by
  rw [Nat.shiftLeft_eq]; unfold byte3 byte2; norm_num; omega

theorem byte2_shl16m (x : Nat) : byte2 (x <<< 16 % 4294967296) = byte0 x := by
  rw [Nat.shiftLeft_eq]; unfold byte2 byte0; norm_num; omega

theorem byte3_shl16m (x : Nat) : byte3 (x <<< 16 % 4294967296) = byte1 x := by
  rw [Nat.shiftLeft_eq]; unfold byte3 byte1; norm_num; omega

theorem byte3_shl24m (x : Nat) : byte3 (x <<< 24 % 4294967296) = byte0 x := by
  rw [Nat.shiftLeft_eq]; unfold byte3 byte0; norm_num; omega

theorem xtime_eta {w : Nat} (h : w < 4294967296) :
    xtime w = ofBytes (xtimeByte (byte0 w)) (xtimeByte (byte1 w))
      (xtimeByte (byte2 w)) (xtimeByte (byte3 w)) := by
  conv_lhs => rw [← ofBytes_eta h]
  rw [xtime_ofBytes (byte0_lt w) (byte1_lt w) (byte2_lt w) (byte3_lt w)]

theorem xtime_wf {w : Nat} (h : w < 4294967296) : xtime w < 4294967296 := by
  rw [xtime_eta h]
  exact ofBytes_lt (xtimeByte_lt _) (xtimeByte_lt _) (xtimeByte_lt _) (xtimeByte_lt _)

theorem byte0_xtime {w : Nat} (h : w < 4294967296) :
    byte0 (xtime w) = xtimeByte (byte0 w) := by
  rw [xtime_eta h, byte0_ofBytes (xtimeByte_lt _)]

theorem byte1_xtime {w : Nat} (h : w < 4294967296) :
    byte1 (xtime w) = xtimeByte (byte1 w) := by
  rw [xtime_eta h, byte1_ofBytes (xtimeByte_lt _) (xtimeByte_lt _)]

theorem byte2_xtime {w : Nat} (h : w < 4294967296) :
    byte2 (xtime w) = xtimeByte (byte2 w) := by
  rw [xtime_eta h, byte2_ofBytes (xtimeByte_lt _) (xtimeByte_lt _) (xtimeByte_lt _)]

theorem byte3_xtime {w : Nat} (h : w < 4294967296) :
    byte3 (xtime w) = xtimeByte (byte3 w) := by
  rw [xtime_eta h, byte3_ofBytes (xtimeByte_lt _) (xtimeByte_lt _) (xtimeByte_lt _)
    (xtimeByte_lt _)]

set_option maxHeartbeats 800000 in
theorem invMix_eta {X : Nat} (h : X < 4294967296) :
    invMixColumnsWord X =
      ofBytes
        (xeB (byte0 X) ^^^ xbB (byte1 X) ^^^ xdB (byte2 X) ^^^ x9B (byte3 X))
        (x9B (byte0 X) ^^^ xeB (byte1 X) ^^^ xbB (byte2 X) ^^^ xdB (byte3 X))
        (xdB (byte0 X) ^^^ x9B (byte1 X) ^^^ xeB (byte2 X) ^^^ xbB (byte3 X))
        (xbB (byte0 X) ^^^ xdB (byte1 X) ^^^ x9B (byte2 X) ^^^ xeB (byte3 X)) := by
  have h1 := xtime_wf h
  have h2 := xtime_wf h1
  conv_lhs =>
    simp only [invMixColumnsWord, and_255_byte, and_FF00_byte, and_FF0000_byte,
      and_FF000000_byte]
  rw [or_assemble (byte0_lt _) (byte1_lt _) (byte2_lt _)]
  simp only [byte0_xor, byte1_xor, byte2_xor, byte3_xor, byte0_shr8, byte0_shr16,
    byte0_shr24, byte1_shr8, byte1_shr16, byte2_shr8, byte1_shl8m, byte2_shl8m,
    byte3_shl8m, byte2_shl16m, byte3_shl16m, byte3_shl24m, byte0_xtime,
    byte1_xtime, byte2_xtime, byte3_xtime, h, h1, h2]
  simp only [x9B, xbB, xdB, xeB]

set_option maxRecDepth 100000 in
theorem imc_mc_unit0 : ∀ u : Nat, u < 256 →
    invMixColumnsWord (mixColumnsWord (ofBytes u 0 0 0)) = ofBytes u 0 0 0 := by
  decide

set_option maxRecDepth 100000 in
theorem imc_mc_unit1 : ∀ u : Nat, u < 256 →
    invMixColumnsWord (mixColumnsWord (ofBytes 0 u 0 0)) = ofBytes 0 u 0 0 := by
  decide

set_option maxRecDepth 100000 in
theorem imc_mc_unit2 : ∀ u : Nat, u < 256 →
    invMixColumnsWord (mixColumnsWord (ofBytes 0 0 u 0)) = ofBytes 0 0 u 0 := by
  decide

set_option maxRecDepth 100000 in
theorem imc_mc_unit3 : ∀ u : Nat, u < 256 →
    invMixColumnsWord (mixColumnsWord (ofBytes 0 0 0 u)) = ofBytes 0 0 0 u := by
  decide

theorem x9B_lt {b : Nat} (h : b < 256) : x9B b < 256 :=
  xor_byte_lt (xtimeByte_lt _) h

theorem xbB_lt {b : Nat} (h : b < 256) : xbB b < 256 :=
  xor_byte_lt (xor_byte_lt (xtimeByte_lt _) (xtimeByte_lt _)) h

theorem xdB_lt {b : Nat} (h : b < 256) : xdB b < 256 :=
  xor_byte_lt (xor_byte_lt (xtimeByte_lt _) (xtimeByte_lt _)) h

theorem xeB_lt (b : Nat) : xeB b < 256 :=
  xor_byte_lt (xor_byte_lt (xtimeByte_lt _) (xtimeByte_lt _)) (xtimeByte_lt _)

theorem x9B_xor (x y : Nat) : x9B (x ^^^ y) = x9B x ^^^ x9B y := by
  simp only [x9B, xtimeByte_xor]
  simp only [Nat.xor_comm, xor_left_comm, Nat.xor_assoc]

theorem xbB_xor (x y : Nat) : xbB (x ^^^ y) = xbB x ^^^ xbB y := by
  simp only [xbB, xtimeByte_xor]
  simp only [Nat.xor_comm, xor_left_comm, Nat.xor_assoc]

theorem xdB_xor (x y : Nat) : xdB (x ^^^ y) = xdB x ^^^ xdB y := by
  simp only [xdB, xtimeByte_xor]
  simp only [Nat.xor_comm, xor_left_comm, Nat.xor_assoc]

theorem xeB_xor (x y : Nat) : xeB (x ^^^ y) = xeB x ^^^ xeB y := by
  simp only [xeB, xtimeByte_xor]
  simp only [Nat.xor_comm, xor_left_comm, Nat.xor_assoc]

theorem mixLane_lt {t u v z : Nat} (hu : u < 256) (hv : v < 256) (hz : z < 256) :
    xtimeByte t ^^^ u ^^^ v ^^^ z < 256 :=
  xor_byte_lt (xor_byte_lt (xor_byte_lt (xtimeByte_lt _) hu) hv) hz

theorem mixColumnsWord_eta {w : Nat} (h : w < 4294967296) :
    mixColumnsWord w =
      ofBytes (xtimeByte (byte0 w ^^^ byte1 w) ^^^ byte3 w ^^^ byte2 w ^^^ byte1 w)
        (xtimeByte (byte1 w ^^^ byte2 w) ^^^ byte0 w ^^^ byte3 w ^^^ byte2 w)
        (xtimeByte (byte2 w ^^^ byte3 w) ^^^ byte1 w ^^^ byte0 w ^^^ byte3 w)
        (xtimeByte (byte3 w ^^^ byte0 w) ^^^ byte2 w ^^^ byte1 w ^^^ byte0 w) := by
  conv_lhs => rw [← ofBytes_eta h,
    mixColumnsWord_ofBytes (byte0_lt w) (byte1_lt w) (byte2_lt w) (byte3_lt w)]

theorem mixColumnsWord_wf {w : Nat} (h : w < 4294967296) :
    mixColumnsWord w < 4294967296 := by
  rw [mixColumnsWord_eta h]
  exact ofBytes_lt (mixLane_lt (byte3_lt w) (byte2_lt w) (byte1_lt w))
    (mixLane_lt (byte0_lt w) (byte3_lt w) (byte2_lt w))
    (mixLane_lt (byte1_lt w) (byte0_lt w) (byte3_lt w))
    (mixLane_lt (byte2_lt w) (byte1_lt w) (byte0_lt w))

theorem xor_word_lt {x y : Nat} (hx : x < 4294967296) (hy : y < 4294967296) :
    x ^^^ y < 4294967296 :=
  Nat.xor_lt_two_pow (n := 32) (by simpa using hx) (by simpa using hy)

theorem mixColumnsWord_xor {x y : Nat} (hx : x < 4294967296) (hy : y < 4294967296) :
    mixColumnsWord (x ^^^ y) = mixColumnsWord x ^^^ mixColumnsWord y := by
  rw [mixColumnsWord_eta (xor_word_lt hx hy), mixColumnsWord_eta hx,
    mixColumnsWord_eta hy,
    ofBytes_xor (mixLane_lt (byte3_lt x) (byte2_lt x) (byte1_lt x))
      (mixLane_lt (byte0_lt x) (byte3_lt x) (byte2_lt x))
      (mixLane_lt (byte1_lt x) (byte0_lt x) (byte3_lt x))
      (mixLane_lt (byte3_lt y) (byte2_lt y) (byte1_lt y))
      (mixLane_lt (byte0_lt y) (byte3_lt y) (byte2_lt y))
      (mixLane_lt (byte1_lt y) (byte0_lt y) (byte3_lt y)),
    byte0_xor, byte1_xor, byte2_xor, byte3_xor]
  simp only [xtimeByte_xor]
  simp only [Nat.xor_comm, xor_left_comm, Nat.xor_assoc]

theorem invMixLane01_lt {a b c d : Nat} (ha : a < 256) (hb : b < 256)
    (hc : c < 256) (hd : d < 256) :
    xeB a ^^^ xbB b ^^^ xdB c ^^^ x9B d < 256 :=
  xor_byte_lt (xor_byte_lt (xor_byte_lt (xeB_lt _) (xbB_lt hb)) (xdB_lt hc))
    (x9B_lt hd)

theorem invMixLane1_lt {a b c d : Nat} (ha : a < 256) (hb : b < 256)
    (hc : c < 256) (hd : d < 256) :
    x9B a ^^^ xeB b ^^^ xbB c ^^^ xdB d < 256 :=
  xor_byte_lt (xor_byte_lt (xor_byte_lt (x9B_lt ha) (xeB_lt _)) (xbB_lt hc))
    (xdB_lt hd)

theorem invMixLane2_lt {a b c d : Nat} (ha : a < 256) (hb : b < 256)
    (hc : c < 256) (hd : d < 256) :
    xdB a ^^^ x9B b ^^^ xeB c ^^^ xbB d < 256 :=
  xor_byte_lt (xor_byte_lt (xor_byte_lt (xdB_lt ha) (x9B_lt hb)) (xeB_lt _))
    (xbB_lt hd)

theorem invMixLane3_lt {a b c d : Nat} (ha : a < 256) (hb : b < 256)
    (hc : c < 256) (hd : d < 256) :
    xbB a ^^^ xdB b ^^^ x9B c ^^^ xeB d < 256 :=
  xor_byte_lt (xor_byte_lt (xor_byte_lt (xbB_lt ha) (xdB_lt hb)) (x9B_lt hc))
    (xeB_lt _)

theorem invMixColumnsWord_xor {x y : Nat} (hx : x < 4294967296)
    (hy : y < 4294967296) :
    invMixColumnsWord (x ^^^ y) = invMixColumnsWord x ^^^ invMixColumnsWord y := by
  rw [invMix_eta (xor_word_lt hx hy), invMix_eta hx, invMix_eta hy,
    ofBytes_xor
      (invMixLane01_lt (byte0_lt x) (byte1_lt x) (byte2_lt x) (byte3_lt x))
      (invMixLane1_lt (byte0_lt x) (byte1_lt x) (byte2_lt x) (byte3_lt x))
      (invMixLane2_lt (byte0_lt x) (byte1_lt x) (byte2_lt x) (byte3_lt x))
      (invMixLane01_lt (byte0_lt y) (byte1_lt y) (byte2_lt y) (byte3_lt y))
      (invMixLane1_lt (byte0_lt y) (byte1_lt y) (byte2_lt y) (byte3_lt y))
      (invMixLane2_lt (byte0_lt y) (byte1_lt y) (byte2_lt y) (byte3_lt y)),
    byte0_xor, byte1_xor, byte2_xor, byte3_xor]
  simp only [x9B_xor, xbB_xor, xdB_xor, xeB_xor]
  simp only [Nat.xor_comm, xor_left_comm, Nat.xor_assoc]

theorem ofBytes_decompose (b0 b1 b2 b3 : Nat) (h0 : b0 < 256) (h1 : b1 < 256)
    (h2 : b2 < 256) :
    ofBytes b0 b1 b2 b3 =
      ofBytes b0 0 0 0 ^^^ ofBytes 0 b1 0 0 ^^^ ofBytes 0 0 b2 0 ^^^
        ofBytes 0 0 0 b3 := by
  rw [ofBytes_xor h0 lt256_0 lt256_0 lt256_0 h1 lt256_0]
  simp only [Nat.xor_zero, Nat.zero_xor]
  rw [ofBytes_xor h0 h1 lt256_0 lt256_0 lt256_0 h2]
  simp only [Nat.xor_zero, Nat.zero_xor]
  rw [ofBytes_xor h0 h1 h2 lt256_0 lt256_0 lt256_0]
  simp only [Nat.xor_zero, Nat.zero_xor]

theorem invMix_mix {w : Nat} (h : w < 4294967296) :
    invMixColumnsWord (mixColumnsWord w) = w := by
  have hu0 : ofBytes (byte0 w) 0 0 0 < 4294967296 :=
    ofBytes_lt (byte0_lt w) lt256_0 lt256_0 lt256_0
  have hu1 : ofBytes 0 (byte1 w) 0 0 < 4294967296 :=
    ofBytes_lt lt256_0 (byte1_lt w) lt256_0 lt256_0
  have hu2 : ofBytes 0 0 (byte2 w) 0 < 4294967296 :=
    ofBytes_lt lt256_0 lt256_0 (byte2_lt w) lt256_0
  have hu3 : ofBytes 0 0 0 (byte3 w) < 4294967296 :=
    ofBytes_lt lt256_0 lt256_0 lt256_0 (byte3_lt w)
  conv_lhs => rw [← ofBytes_eta h,
    ofBytes_decompose _ _ _ _ (byte0_lt w) (byte1_lt w) (byte2_lt w)]
  rw [mixColumnsWord_xor (xor_word_lt (xor_word_lt hu0 hu1) hu2) hu3,
    mixColumnsWord_xor (xor_word_lt hu0 hu1) hu2,
    mixColumnsWord_xor hu0 hu1,
    invMixColumnsWord_xor
      (xor_word_lt (xor_word_lt (mixColumnsWord_wf hu0) (mixColumnsWord_wf hu1))
        (mixColumnsWord_wf hu2)) (mixColumnsWord_wf hu3),
    invMixColumnsWord_xor
      (xor_word_lt (mixColumnsWord_wf hu0) (mixColumnsWord_wf hu1))
      (mixColumnsWord_wf hu2),
    invMixColumnsWord_xor (mixColumnsWord_wf hu0) (mixColumnsWord_wf hu1),
    imc_mc_unit0 _ (byte0_lt w), imc_mc_unit1 _ (byte1_lt w),
    imc_mc_unit2 _ (byte2_lt w), imc_mc_unit3 _ (byte3_lt w),
    ← ofBytes_decompose _ _ _ _ (byte0_lt w) (byte1_lt w) (byte2_lt w),
    ofBytes_eta h]

/-! The substitution tables are mutually inverse; word- and state-level
inverse lemmas. -/

set_option maxRecDepth 100000 in
theorem rsbox_sbox : ∀ x : Nat, x < 256 → getSBoxInvert (getSBoxValue x) = x := by
  decide

set_option maxRecDepth 100000 in
theorem sbox_rsbox : ∀ x : Nat, x < 256 → getSBoxValue (getSBoxInvert x) = x := by
  decide

theorem invSubWord_subWord {w : Nat} (h : w < 4294967296) :
    invSubWordBytes (subWordBytes w) = w := by
  conv_lhs => rw [← ofBytes_eta h,
    subWordBytes_ofBytes (byte0_lt w) (byte1_lt w) (byte2_lt w) (byte3_lt w),
    invSubWordBytes_ofBytes (getSBoxValue_lt _) (getSBoxValue_lt _)
      (getSBoxValue_lt _) (getSBoxValue_lt _),
    rsbox_sbox _ (byte0_lt w), rsbox_sbox _ (byte1_lt w),
    rsbox_sbox _ (byte2_lt w), rsbox_sbox _ (byte3_lt w)]
  exact ofBytes_eta h

theorem subWordBytes_wf (w : Nat) : subWordBytes w < 4294967296 := by
  rw [subWordBytes_eq_spec]
  exact ofBytes_lt (getSBoxValue_lt _) (getSBoxValue_lt _) (getSBoxValue_lt _)
    (getSBoxValue_lt _)

theorem invSubWordBytes_wf (w : Nat) : invSubWordBytes w < 4294967296 := by
  have : invSubWordBytes w =
      ofBytes (getSBoxInvert (byte0 w)) (getSBoxInvert (byte1 w))
        (getSBoxInvert (byte2 w)) (getSBoxInvert (byte3 w)) := by
    unfold invSubWordBytes
    exact or_assemble (getSBoxInvert_lt _) (getSBoxInvert_lt _) (getSBoxInvert_lt _)
  rw [this]
  exact ofBytes_lt (getSBoxInvert_lt _) (getSBoxInvert_lt _) (getSBoxInvert_lt _)
    (getSBoxInvert_lt _)

theorem InvSubBytes_SubBytes {s : state_t} (h : wfState s) :
    InvSubBytes (SubBytes s) = s := by
  obtain ⟨h0, h1, h2, h3⟩ := h
  unfold InvSubBytes SubBytes
  simp only [invSubWord_subWord h0, invSubWord_subWord h1, invSubWord_subWord h2,
    invSubWord_subWord h3]

theorem SubBytes_wf (s : state_t) : wfState (SubBytes s) :=
  ⟨subWordBytes_wf _, subWordBytes_wf _, subWordBytes_wf _, subWordBytes_wf _⟩

theorem InvSubBytes_wf (s : state_t) : wfState (InvSubBytes s) :=
  ⟨invSubWordBytes_wf _, invSubWordBytes_wf _, invSubWordBytes_wf _,
   invSubWordBytes_wf _⟩

theorem InvShiftRows_ShiftRows {s : state_t} (h : wfState s) :
    InvShiftRows (ShiftRows s) = s := by
  obtain ⟨h0, h1, h2, h3⟩ := h
  obtain ⟨i0, i1, i2, i3⟩ := s
  simp only [wfState, wfWord] at h0 h1 h2 h3
  conv_lhs =>
    rw [show state_t.mk i0 i1 i2 i3 =
      ⟨ofBytes (byte0 i0) (byte1 i0) (byte2 i0) (byte3 i0),
       ofBytes (byte0 i1) (byte1 i1) (byte2 i1) (byte3 i1),
       ofBytes (byte0 i2) (byte1 i2) (byte2 i2) (byte3 i2),
       ofBytes (byte0 i3) (byte1 i3) (byte2 i3) (byte3 i3)⟩ by
        rw [ofBytes_eta h0, ofBytes_eta h1, ofBytes_eta h2, ofBytes_eta h3]]
    rw [ShiftRows_ofBytes (byte0_lt i0) (byte1_lt i0) (byte2_lt i0) (byte3_lt i0)
      (byte0_lt i1) (byte1_lt i1) (byte2_lt i1) (byte3_lt i1)
      (byte0_lt i2) (byte1_lt i2) (byte2_lt i2) (byte3_lt i2)
      (byte0_lt i3) (byte1_lt i3) (byte2_lt i3) (byte3_lt i3)]
    rw [InvShiftRows_ofBytes (byte0_lt i0) (byte1_lt i1) (byte2_lt i2) (byte3_lt i3)
      (byte0_lt i1) (byte1_lt i2) (byte2_lt i3) (byte3_lt i0)
      (byte0_lt i2) (byte1_lt i3) (byte2_lt i0) (byte3_lt i1)
      (byte0_lt i3) (byte1_lt i0) (byte2_lt i1) (byte3_lt i2)]
  rw [ofBytes_eta h0, ofBytes_eta h1, ofBytes_eta h2, ofBytes_eta h3]

theorem ShiftRows_wf {s : state_t} (h : wfState s) : wfState (ShiftRows s) := by
  obtain ⟨h0, h1, h2, h3⟩ := h
  obtain ⟨i0, i1, i2, i3⟩ := s
  rw [show state_t.mk i0 i1 i2 i3 =
      ⟨ofBytes (byte0 i0) (byte1 i0) (byte2 i0) (byte3 i0),
       ofBytes (byte0 i1) (byte1 i1) (byte2 i1) (byte3 i1),
       ofBytes (byte0 i2) (byte1 i2) (byte2 i2) (byte3 i2),
       ofBytes (byte0 i3) (byte1 i3) (byte2 i3) (byte3 i3)⟩ by
        rw [ofBytes_eta h0, ofBytes_eta h1, ofBytes_eta h2, ofBytes_eta h3],
    ShiftRows_ofBytes (byte0_lt i0) (byte1_lt i0) (byte2_lt i0) (byte3_lt i0)
      (byte0_lt i1) (byte1_lt i1) (byte2_lt i1) (byte3_lt i1)
      (byte0_lt i2) (byte1_lt i2) (byte2_lt i2) (byte3_lt i2)
      (byte0_lt i3) (byte1_lt i3) (byte2_lt i3) (byte3_lt i3)]
  exact ⟨ofBytes_lt (byte0_lt _) (byte1_lt _) (byte2_lt _) (byte3_lt _),
    ofBytes_lt (byte0_lt _) (byte1_lt _) (byte2_lt _) (byte3_lt _),
    ofBytes_lt (byte0_lt _) (byte1_lt _) (byte2_lt _) (byte3_lt _),
    ofBytes_lt (byte0_lt _) (byte1_lt _) (byte2_lt _) (byte3_lt _)⟩

theorem MixColumns_wf {s : state_t} (h : wfState s) : wfState (MixColumns s) :=
  ⟨mixColumnsWord_wf h.1, mixColumnsWord_wf h.2.1, mixColumnsWord_wf h.2.2.1,
   mixColumnsWord_wf h.2.2.2⟩

theorem AddRoundKey_wf {round : Nat} {s : state_t} {rk : List Nat}
    (h : wfState s) (hrk : wfWords rk) : wfState (AddRoundKey round s rk) :=
  ⟨xor_word_lt h.1 (getD_lt_of_all hrk (by omega)),
   xor_word_lt h.2.1 (getD_lt_of_all hrk (by omega)),
   xor_word_lt h.2.2.1 (getD_lt_of_all hrk (by omega)),
   xor_word_lt h.2.2.2 (getD_lt_of_all hrk (by omega))⟩

theorem AddRoundKey_cancel (round : Nat) (s : state_t) (rk : List Nat) :
    AddRoundKey round (AddRoundKey round s rk) rk = s := by
  unfold AddRoundKey
  simp only [Nat.xor_cancel_right]

theorem InvMixColumns_MixColumns {s : state_t} (h : wfState s) :
    InvMixColumns (MixColumns s) = s := by
  obtain ⟨h0, h1, h2, h3⟩ := h
  unfold InvMixColumns MixColumns
  simp only [invMix_mix h0, invMix_mix h1, invMix_mix h2, invMix_mix h3]

theorem fullRoundSpec_wf {rk : List Nat} {s : state_t} {round : Nat}
    (h : wfState s) (hrk : wfWords rk) : wfState (fullRoundSpec rk s round) :=
  AddRoundKey_wf (MixColumns_wf (ShiftRows_wf (SubBytes_wf s))) hrk

theorem midRounds_wf {rk : List Nat} (hrk : wfWords rk) :
    ∀ (l : List Nat) {s : state_t}, wfState s →
      wfState (l.foldl (fullRoundSpec rk) s)
  | [], _, h => h
  | _ :: t, _, h => midRounds_wf hrk t (fullRoundSpec_wf h hrk)

theorem cipherRounds_eq_spec (rk : List Nat) :
    ∀ (fuel round : Nat) (s : state_t),
      cipherRounds rk round fuel s =
        AddRoundKey (round + fuel)
          (ShiftRows (SubBytes ((List.range' round fuel).foldl
            (fullRoundSpec rk) s))) rk := by
  intro fuel
  induction fuel with
  | zero => intro round s; simp [cipherRounds]
  | succ n ih =>
      intro round s
      rw [show cipherRounds rk round (n + 1) s =
        cipherRounds rk (round + 1) n
          (AddRoundKey round (MixColumns (ShiftRows (SubBytes s))) rk) from rfl,
        ih, List.range'_succ]
      rw [show round + (n + 1) = round + 1 + n by omega]
      rfl

theorem invCipher_cipher_loop {rk : List Nat} (hrk : wfWords rk) :
    ∀ (m : Nat) (s : state_t), wfState s →
      invCipherRounds rk m
        (ShiftRows (SubBytes ((List.range' 1 m).foldl (fullRoundSpec rk) s))) =
      AddRoundKey 0 s rk := by
  intro m
  induction m with
  | zero =>
      intro s hs
      show AddRoundKey 0 (InvSubBytes (InvShiftRows (ShiftRows (SubBytes s)))) rk = _
      rw [InvShiftRows_ShiftRows (SubBytes_wf s), InvSubBytes_SubBytes hs]
  | succ n ih =>
      intro s hs
      have hrange : List.range' 1 (n + 1) = List.range' 1 n ++ [1 + n] := by
        have h' : List.range' 1 (n + 1) = List.range' 1 n ++ [1 + 1 * n] :=
          List.range'_concat 1 n
        simpa using h' 
      rw [hrange, List.foldl_append]
      have hu : wfState ((List.range' 1 n).foldl (fullRoundSpec rk) s) :=
        midRounds_wf hrk _ hs
      show invCipherRounds rk n
          (InvMixColumns (AddRoundKey (n + 1) (InvSubBytes (InvShiftRows
            (ShiftRows (SubBytes (List.foldl (fullRoundSpec rk)
              (fullRoundSpec rk ((List.range' 1 n).foldl (fullRoundSpec rk) s) (1 + n))
              []))))) rk)) = _
      rw [List.foldl_nil]
      rw [show fullRoundSpec rk ((List.range' 1 n).foldl (fullRoundSpec rk) s) (1 + n) =
        AddRoundKey (n + 1) (MixColumns (ShiftRows (SubBytes
          ((List.range' 1 n).foldl (fullRoundSpec rk) s)))) rk by
          rw [show 1 + n = n + 1 by omega]; rfl]
      rw [InvShiftRows_ShiftRows (SubBytes_wf _),
        InvSubBytes_SubBytes
          (AddRoundKey_wf (MixColumns_wf (ShiftRows_wf (SubBytes_wf _))) hrk),
        AddRoundKey_cancel,
        InvMixColumns_MixColumns (ShiftRows_wf (SubBytes_wf _))]
      exact ih _ hs

theorem InvCipher_Cipher {Nr : Nat} {rk : List Nat} {s : state_t}
    (hNr : 1 ≤ Nr) (hrk : wfWords rk) (hs : wfState s) :
    InvCipher Nr (Cipher Nr s rk) rk = s := by
  unfold Cipher InvCipher
  rw [cipherRounds_eq_spec, show 1 + (Nr - 1) = Nr by omega,
    AddRoundKey_cancel,
    invCipher_cipher_loop hrk _ _ (AddRoundKey_wf hs hrk),
    AddRoundKey_cancel]

/-! Key-expansion lemmas. -/

theorem keRounds_length (Nk : Nat) :
    ∀ (fuel : Nat) (W : List Nat), (keRounds Nk W fuel).length = W.length + fuel := by
  intro fuel
  induction fuel with
  | zero => intro W; simp [keRounds]
  | succ n ih =>
      intro W
      show (keRounds Nk (W ++ [_]) n).length = _
      rw [ih]
      simp
      omega

theorem keRounds_getD_early (Nk : Nat) :
    ∀ (fuel : Nat) (W : List Nat) (j : Nat), j < W.length →
      (keRounds Nk W fuel).getD j 0 = W.getD j 0 := by
  intro fuel
  induction fuel with
  | zero => intro W j _; rfl
  | succ n ih =>
      intro W j hj
      show (keRounds Nk (W ++ [_]) n).getD j 0 = _
      rw [ih _ _ (by simp; omega), List.getD_append _ _ _ _ hj]

theorem keRounds_getD_rec (Nk : Nat) (hNk : 0 < Nk) :
    ∀ (fuel : Nat) (W : List Nat) (j : Nat), Nk ≤ W.length → W.length ≤ j →
      j < W.length + fuel →
      (keRounds Nk W fuel).getD j 0 =
        (keRounds Nk W fuel).getD (j - Nk) 0 ^^^
          keTemp Nk j ((keRounds Nk W fuel).getD (j - 1) 0) := by
  intro fuel
  induction fuel with
  | zero => intro W j h1 h2 h3; omega
  | succ n ih =>
      intro W j h1 h2 h3
      by_cases hj : j = W.length
      · subst hj
        show (keRounds Nk (W ++ [_]) n).getD W.length 0 = _
        rw [keRounds_getD_early _ _ _ _ (by simp),
          keRounds_getD_early _ _ _ _ (by simp; omega),
          keRounds_getD_early _ _ _ _ (by simp; omega),
          List.getD_append_right _ _ _ _ (Nat.le_refl _), Nat.sub_self]
        rfl
      · show (keRounds Nk (W ++ [_]) n).getD j 0 = _
        exact ih (W ++ [_]) j (by simp; omega) (by simp; omega) (by simp; omega)

theorem setByte0_eq {w b : Nat} (hw : w < 4294967296) (hb : b < 256) :
    setByte0 w b = ofBytes b (byte1 w) (byte2 w) (byte3 w) := by
  unfold setByte0 ofBytes byte1 byte2 byte3
  omega

theorem setByte3_rot {w : Nat} (hw : w < 4294967296) :
    setByte3 (w >>> 8) (byte0 w) = RotWordSpec w := by
  rw [Nat.shiftRight_eq_div_pow]
  unfold setByte3 RotWordSpec ofBytes byte0 byte1 byte2 byte3
  norm_num
  omega

theorem subWordBytes_wf' (w : Nat) : subWordBytes w < 4294967296 :=
  subWordBytes_wf w

theorem SubWordSpec_wf (w : Nat) : SubWordSpec w < 4294967296 :=
  ofBytes_lt (getSBoxValue_lt _) (getSBoxValue_lt _) (getSBoxValue_lt _)
    (getSBoxValue_lt _)

theorem keTemp_eq_spec {Nk i prev : Nat} (h : prev < 4294967296) :
    keTemp Nk i prev = keTempSpec Nk i prev := by
  have hrot : setByte3 (prev >>> 8) (byte0 prev) = RotWordSpec prev := setByte3_rot h
  have hset : setByte0 (SubWordSpec (RotWordSpec prev))
      (byte0 (SubWordSpec (RotWordSpec prev)) ^^^ getRconValue (i / Nk)) =
      ofBytes (byte0 (SubWordSpec (RotWordSpec prev)) ^^^ getRconValue (i / Nk))
        (byte1 (SubWordSpec (RotWordSpec prev)))
        (byte2 (SubWordSpec (RotWordSpec prev)))
        (byte3 (SubWordSpec (RotWordSpec prev))) :=
    setByte0_eq (SubWordSpec_wf _) (xor_byte_lt (byte0_lt _) (getRconValue_lt _))
  by_cases h1 : i % Nk = 0
  · simp [keTemp, keTempSpec, h1, hrot, subWordBytes_eq_spec, hset]
  · by_cases h2 : Nk = 8 ∧ i % Nk = 4
    · obtain ⟨h8, h4⟩ := h2
      subst h8
      simp [keTemp, keTempSpec, h1, h4, subWordBytes_eq_spec]
    · by_cases h8 : Nk = 8
      · have h4 : i % Nk ≠ 4 := fun hc => h2 ⟨h8, hc⟩
        subst h8
        simp [keTemp, keTempSpec, h1, h4, h2]
      · simp [keTemp, keTempSpec, h1, h8, h2]

theorem keTemp_wf {Nk i prev : Nat} (h : prev < 4294967296) :
    keTemp Nk i prev < 4294967296 := by
  rw [keTemp_eq_spec h]
  unfold keTempSpec
  split
  · exact ofBytes_lt (xor_byte_lt (byte0_lt _) (getRconValue_lt _)) (byte1_lt _)
      (byte2_lt _) (byte3_lt _)
  · split
    · exact SubWordSpec_wf _
    · exact h

theorem keRounds_wf (Nk : Nat) :
    ∀ (fuel : Nat) (W : List Nat), wfWords W → wfWords (keRounds Nk W fuel) := by
  intro fuel
  induction fuel with
  | zero => intro W h; exact h
  | succ n ih =>
      intro W h
      refine ih _ (fun w hw => ?_)
      rcases List.mem_append.mp hw with h' | h'
      · exact h w h'
      · rcases List.mem_singleton.mp h' with rfl
        exact xor_word_lt (getD_lt_of_all h (by omega))
          (keTemp_wf (getD_lt_of_all h (by omega)))

theorem initWords_wf {Nk : Nat} {Key : List Nat} (hK : Bytes Key) :
    wfWords ((List.range Nk).map (wordAt Key)) := by
  intro w hw
  rcases List.mem_map.mp hw with ⟨j, _, rfl⟩
  exact ofBytes_lt (getD_lt_of_all hK (by omega)) (getD_lt_of_all hK (by omega))
    (getD_lt_of_all hK (by omega)) (getD_lt_of_all hK (by omega))

theorem KeyExpansion_wf {Nk Nr : Nat} {Key : List Nat} (hK : Bytes Key) :
    wfWords (KeyExpansion Nk Nr Key) :=
  keRounds_wf Nk _ _ (initWords_wf hK)

theorem KeyExpansion_length {Nk Nr : Nat} (h : Nk ≤ 4 * (Nr + 1)) (Key : List Nat) :
    (KeyExpansion Nk Nr Key).length = 4 * (Nr + 1) := by
  unfold KeyExpansion
  rw [keRounds_length]
  simp
  omega

theorem KeyExpansion_init {Nk Nr : Nat} (Key : List Nat) {j : Nat} (hj : j < Nk) :
    (KeyExpansion Nk Nr Key).getD j 0 = wordAt Key j := by
  unfold KeyExpansion
  rw [keRounds_getD_early _ _ _ _ (by simp; omega)]
  rw [List.getD_eq_getElem _ _ (by simp; omega)]
  simp

theorem KeyExpansion_rec {Nk Nr : Nat} (hNk : 0 < Nk) {Key : List Nat}
    (hK : Bytes Key) {i : Nat} (h1 : Nk ≤ i) (h2 : i < 4 * (Nr + 1)) :
    (KeyExpansion Nk Nr Key).getD i 0 =
      (KeyExpansion Nk Nr Key).getD (i - Nk) 0 ^^^
        keTempSpec Nk i ((KeyExpansion Nk Nr Key).getD (i - 1) 0) := by
  unfold KeyExpansion
  rw [keRounds_getD_rec Nk hNk _ _ _ (by simp) (by simp; omega)
    (by rw [show ((List.range Nk).map (wordAt Key)).length = Nk by simp]; omega)]
  rw [keTemp_eq_spec (getD_lt_of_all (keRounds_wf Nk _ _ (initWords_wf hK)) (by omega))]

/-! Loading and storing 16-byte blocks through the `state_t` view. -/

theorem loadState_wf {b : List Nat} (hB : Bytes b) : wfState (loadState b) := by
  refine ⟨?_, ?_, ?_, ?_⟩ <;>
    exact ofBytes_lt (getD_lt_of_all hB (by omega)) (getD_lt_of_all hB (by omega))
      (getD_lt_of_all hB (by omega)) (getD_lt_of_all hB (by omega))

theorem storeState_Bytes (s : state_t) : Bytes (storeState s) := by
  intro x hx
  simp [storeState] at hx
  rcases hx with h | h | h | h | h | h | h | h | h | h | h | h | h | h | h | h <;>
    subst h <;>
    first
      | exact byte0_lt _
      | exact byte1_lt _
      | exact byte2_lt _
      | exact byte3_lt _

theorem storeState_length (s : state_t) : (storeState s).length = 16 := rfl

theorem loadState_storeState {s : state_t} (h : wfState s) :
    loadState (storeState s) = s := by
  obtain ⟨h0, h1, h2, h3⟩ := h
  obtain ⟨i0, i1, i2, i3⟩ := s
  simp only [wfState, wfWord] at h0 h1 h2 h3
  show state_t.mk _ _ _ _ = _
  rw [show wordAt (storeState ⟨i0, i1, i2, i3⟩) 0 =
      ofBytes (byte0 i0) (byte1 i0) (byte2 i0) (byte3 i0) from rfl,
    show wordAt (storeState ⟨i0, i1, i2, i3⟩) 1 =
      ofBytes (byte0 i1) (byte1 i1) (byte2 i1) (byte3 i1) from rfl,
    show wordAt (storeState ⟨i0, i1, i2, i3⟩) 2 =
      ofBytes (byte0 i2) (byte1 i2) (byte2 i2) (byte3 i2) from rfl,
    show wordAt (storeState ⟨i0, i1, i2, i3⟩) 3 =
      ofBytes (byte0 i3) (byte1 i3) (byte2 i3) (byte3 i3) from rfl,
    ofBytes_eta h0, ofBytes_eta h1, ofBytes_eta h2, ofBytes_eta h3]

theorem storeState_loadState {b : List Nat} (hlen : b.length = 16)
    (hB : Bytes b) : storeState (loadState b) = b := by
  rcases b with _ | ⟨x0, b⟩; · simp at hlen
  rcases b with _ | ⟨x1, b⟩; · simp at hlen
  rcases b with _ | ⟨x2, b⟩; · simp at hlen
  rcases b with _ | ⟨x3, b⟩; · simp at hlen
  rcases b with _ | ⟨x4, b⟩; · simp at hlen
  rcases b with _ | ⟨x5, b⟩; · simp at hlen
  rcases b with _ | ⟨x6, b⟩; · simp at hlen
  rcases b with _ | ⟨x7, b⟩; · simp at hlen
  rcases b with _ | ⟨x8, b⟩; · simp at hlen
  rcases b with _ | ⟨x9, b⟩; · simp at hlen
  rcases b with _ | ⟨x10, b⟩; · simp at hlen
  rcases b with _ | ⟨x11, b⟩; · simp at hlen
  rcases b with _ | ⟨x12, b⟩; · simp at hlen
  rcases b with _ | ⟨x13, b⟩; · simp at hlen
  rcases b with _ | ⟨x14, b⟩; · simp at hlen
  rcases b with _ | ⟨x15, b⟩; · simp at hlen
  rcases b with _ | ⟨x16, b⟩
  swap; · simp at hlen
  have h0 : x0 < 256 := hB _ (by simp)
  have h1 : x1 < 256 := hB _ (by simp)
  have h2 : x2 < 256 := hB _ (by simp)
  have h3 : x3 < 256 := hB _ (by simp)
  have h4 : x4 < 256 := hB _ (by simp)
  have h5 : x5 < 256 := hB _ (by simp)
  have h6 : x6 < 256 := hB _ (by simp)
  have h7 : x7 < 256 := hB _ (by simp)
  have h8 : x8 < 256 := hB _ (by simp)
  have h9 : x9 < 256 := hB _ (by simp)
  have h10 : x10 < 256 := hB _ (by simp)
  have h11 : x11 < 256 := hB _ (by simp)
  have h12 : x12 < 256 := hB _ (by simp)
  have h13 : x13 < 256 := hB _ (by simp)
  have h14 : x14 < 256 := hB _ (by simp)
  have h15 : x15 < 256 := hB _ (by simp)
  show [byte0 (ofBytes x0 x1 x2 x3), byte1 (ofBytes x0 x1 x2 x3),
    byte2 (ofBytes x0 x1 x2 x3), byte3 (ofBytes x0 x1 x2 x3),
    byte0 (ofBytes x4 x5 x6 x7), byte1 (ofBytes x4 x5 x6 x7),
    byte2 (ofBytes x4 x5 x6 x7), byte3 (ofBytes x4 x5 x6 x7),
    byte0 (ofBytes x8 x9 x10 x11), byte1 (ofBytes x8 x9 x10 x11),
    byte2 (ofBytes x8 x9 x10 x11), byte3 (ofBytes x8 x9 x10 x11),
    byte0 (ofBytes x12 x13 x14 x15), byte1 (ofBytes x12 x13 x14 x15),
    byte2 (ofBytes x12 x13 x14 x15), byte3 (ofBytes x12 x13 x14 x15)] = _
  rw [byte0_ofBytes h0, byte1_ofBytes h0 h1, byte2_ofBytes h0 h1 h2,
    byte3_ofBytes h0 h1 h2 h3, byte0_ofBytes h4, byte1_ofBytes h4 h5,
    byte2_ofBytes h4 h5 h6, byte3_ofBytes h4 h5 h6 h7, byte0_ofBytes h8,
    byte1_ofBytes h8 h9, byte2_ofBytes h8 h9 h10, byte3_ofBytes h8 h9 h10 h11,
    byte0_ofBytes h12, byte1_ofBytes h12 h13, byte2_ofBytes h12 h13 h14,
    byte3_ofBytes h12 h13 h14 h15]

theorem zipWith_xor_cancel :
    ∀ (t k : List Nat), t.length ≤ k.length →
      List.zipWith (fun x y => x ^^^ y) (List.zipWith (fun x y => x ^^^ y) t k) k = t
  | [], _, _ => by simp
  | _ :: _, [], h => by simp at h
  | x :: t, y :: k, h => by
      simp only [List.zipWith]
      rw [Nat.xor_cancel_right, zipWith_xor_cancel t k (by simpa using h)]

theorem XorWithIv_cancel {b iv : List Nat} (h : b.length ≤ iv.length) :
    XorWithIv (XorWithIv b iv) iv = b := zipWith_xor_cancel b iv h

theorem XorWithIv_Bytes :
    ∀ {b iv : List Nat}, Bytes b → Bytes iv → Bytes (XorWithIv b iv) := by
  intro b
  induction b with
  | nil => intro iv _ _; simp [XorWithIv, Bytes]
  | cons x t ih =>
      intro iv hb hiv
      cases iv with
      | nil => simp [XorWithIv, Bytes]
      | cons y k =>
          intro z hz
          simp only [XorWithIv, List.zipWith] at hz
          rcases List.mem_cons.mp hz with rfl | hz
          · exact xor_byte_lt (hb _ (by simp)) (hiv _ (by simp))
          · exact ih (fun u hu => hb u (by simp [hu]))
              (fun u hu => hiv u (by simp [hu])) z hz

theorem XorWithIv_length (b iv : List Nat) :
    (XorWithIv b iv).length = min b.length iv.length := by
  simp [XorWithIv]

/-! Unfolding and composition lemmas for the mode loops. -/

theorem cbcEncLoop_nil (Nr : Nat) (rk iv : List Nat) :
    cbcEncLoop Nr rk iv [] = some ([], iv) := by
  rw [cbcEncLoop]

theorem cbcEncLoop_block (Nr : Nat) (rk : List Nat) {b : List Nat}
    (hb : b.length = 16) (iv rest : List Nat) :
    cbcEncLoop Nr rk iv (b ++ rest) =
      match cbcEncLoop Nr rk
          (storeState (Cipher Nr (loadState (XorWithIv b iv)) rk)) rest with
      | none => none
      | some (out, ivOut) =>
          some (storeState (Cipher Nr (loadState (XorWithIv b iv)) rk) ++ out,
            ivOut) := by
  rcases b with _ | ⟨x, t⟩
  · simp at hb
  · rw [show (x :: t) ++ rest = x :: (t ++ rest) from rfl, cbcEncLoop]
    rw [show x :: (t ++ rest) = (x :: t) ++ rest from rfl,
      List.take_left' hb, List.drop_left' hb]
    have hlen : ¬ ((x :: t) ++ rest).length < 16 := by
      simp at hb ⊢
      omega
    simp only [hlen, if_false]

theorem cbcEncLoop_single {Nr : Nat} {rk : List Nat} {b : List Nat}
    (hb : b.length = 16) (iv : List Nat) :
    cbcEncLoop Nr rk iv b =
      some (storeState (Cipher Nr (loadState (XorWithIv b iv)) rk),
        storeState (Cipher Nr (loadState (XorWithIv b iv)) rk)) := by
  have h := cbcEncLoop_block Nr rk hb iv []
  simp only [List.append_nil, cbcEncLoop_nil] at h
  simpa using h

theorem cbcDecLoop_nil (Nr : Nat) (rk iv : List Nat) :
    cbcDecLoop Nr rk iv [] = some ([], iv) := by
  rw [cbcDecLoop]

theorem cbcDecLoop_block (Nr : Nat) (rk : List Nat) {b : List Nat}
    (hb : b.length = 16) (iv rest : List Nat) :
    cbcDecLoop Nr rk iv (b ++ rest) =
      match cbcDecLoop Nr rk b rest with
      | none => none
      | some (out, ivOut) =>
          some (XorWithIv (storeState (InvCipher Nr (loadState b) rk)) iv ++ out,
            ivOut) := by
  rcases b with _ | ⟨x, t⟩
  · simp at hb
  · rw [show (x :: t) ++ rest = x :: (t ++ rest) from rfl, cbcDecLoop]
    rw [show x :: (t ++ rest) = (x :: t) ++ rest from rfl,
      List.take_left' hb, List.drop_left' hb]
    have hlen : ¬ ((x :: t) ++ rest).length < 16 := by
      simp at hb ⊢
      omega
    simp only [hlen, if_false]

theorem cbcDecLoop_single {Nr : Nat} {rk : List Nat} {b : List Nat}
    (hb : b.length = 16) (iv : List Nat) :
    cbcDecLoop Nr rk iv b =
      some (XorWithIv (storeState (InvCipher Nr (loadState b) rk)) iv, b) := by
  have h := cbcDecLoop_block Nr rk hb iv []
  simp only [List.append_nil, cbcDecLoop_nil] at h
  simpa using h

theorem ctrLoop_nil (Nr : Nat) (rk iv : List Nat) :
    ctrLoop Nr rk iv [] = ([], iv) := by
  rw [ctrLoop]

theorem ctrLoop_ne {buf : List Nat} (h : buf ≠ []) (Nr : Nat) (rk iv : List Nat) :
    ctrLoop Nr rk iv buf =
      (List.zipWith (fun x y => x ^^^ y) (buf.take 16)
          (storeState (Cipher Nr (loadState iv) rk)) ++
        (ctrLoop Nr rk (IncIv iv) (buf.drop 16)).1,
       (ctrLoop Nr rk (IncIv iv) (buf.drop 16)).2) := by
  rcases buf with _ | ⟨x, t⟩
  · exact absurd rfl h
  · rw [ctrLoop]

theorem cipherRounds_wf {rk : List Nat} (hrk : wfWords rk) :
    ∀ (fuel round : Nat) {s : state_t}, wfState s →
      wfState (cipherRounds rk round fuel s)
  | 0, round, s, hs => AddRoundKey_wf (ShiftRows_wf (SubBytes_wf _)) hrk
  | fuel + 1, round, s, hs =>
      cipherRounds_wf hrk fuel (round + 1)
        (AddRoundKey_wf (MixColumns_wf (ShiftRows_wf (SubBytes_wf _))) hrk)

theorem Cipher_wf {Nr : Nat} {rk : List Nat} {s : state_t} (hs : wfState s)
    (hrk : wfWords rk) : wfState (Cipher Nr s rk) :=
  cipherRounds_wf hrk _ _ (AddRoundKey_wf hs hrk)

theorem Bytes_take (n : Nat) {l : List Nat} (h : Bytes l) : Bytes (l.take n) :=
  fun x hx => h x (List.mem_of_mem_take hx)

theorem Bytes_drop (n : Nat) {l : List Nat} (h : Bytes l) : Bytes (l.drop n) :=
  fun x hx => h x (List.mem_of_mem_drop hx)

theorem Bytes_append {l l' : List Nat} (h : Bytes l) (h' : Bytes l') :
    Bytes (l ++ l') := by
  intro x hx
  rcases List.mem_append.mp hx with hx | hx
  · exact h x hx
  · exact h' x hx

theorem cbc_roundtrip {Nr : Nat} {rk : List Nat} (hNr : 1 ≤ Nr)
    (hrk : wfWords rk) :
    ∀ (n : Nat) (buf iv : List Nat), buf.length = 16 * n → Bytes buf →
      Bytes iv → iv.length = 16 →
      ∃ c ivE ivD, cbcEncLoop Nr rk iv buf = some (c, ivE) ∧ Bytes c ∧
        c.length = buf.length ∧ cbcDecLoop Nr rk iv c = some (buf, ivD) := by
  intro n
  induction n with
  | zero =>
      intro buf iv hlen _ _ _
      obtain rfl : buf = [] := List.eq_nil_of_length_eq_zero (by omega)
      exact ⟨[], iv, iv, cbcEncLoop_nil _ _ _, by simp [Bytes], rfl,
        cbcDecLoop_nil _ _ _⟩
  | succ n ih =>
      intro buf iv hlen hbuf hiv hivlen
      have hb16 : (buf.take 16).length = 16 := by simp; omega
      have hrest : (buf.drop 16).length = 16 * n := by simp; omega
      have hxB : Bytes (XorWithIv (buf.take 16) iv) :=
        XorWithIv_Bytes (Bytes_take _ hbuf) hiv
      have hxlen : (XorWithIv (buf.take 16) iv).length = 16 := by
        rw [XorWithIv_length, hb16, hivlen]
        simp
      obtain ⟨cR, ivE, ivD, hencR, hBcR, hlenR, hdecR⟩ :=
        ih (buf.drop 16)
          (storeState (Cipher Nr (loadState (XorWithIv (buf.take 16) iv)) rk))
          hrest (Bytes_drop _ hbuf) (storeState_Bytes _) (storeState_length _)
      refine ⟨storeState (Cipher Nr (loadState (XorWithIv (buf.take 16) iv)) rk)
        ++ cR, ivE, ivD, ?_, Bytes_append (storeState_Bytes _) hBcR, ?_, ?_⟩
      · conv_lhs => rw [← List.take_append_drop 16 buf]
        rw [cbcEncLoop_block Nr rk hb16, hencR]
      · rw [List.length_append, storeState_length, hlenR]
        simp
        omega
      · rw [cbcDecLoop_block Nr rk (storeState_length _), hdecR,
          loadState_storeState (Cipher_wf (loadState_wf hxB) hrk),
          InvCipher_Cipher hNr hrk (loadState_wf hxB),
          storeState_loadState hxlen hxB,
          XorWithIv_cancel (by simp [hb16, hivlen])]
        simp [List.take_append_drop]

theorem ctr_roundtrip {Nr : Nat} {rk : List Nat} :
    ∀ (n : Nat) (buf iv : List Nat), buf.length ≤ n →
      (ctrLoop Nr rk iv (ctrLoop Nr rk iv buf).1).1 = buf := by
  intro n
  induction n with
  | zero =>
      intro buf iv h
      obtain rfl : buf = [] := List.eq_nil_of_length_eq_zero (by omega)
      rw [ctrLoop_nil, ctrLoop_nil]
  | succ n ih =>
      intro buf iv h
      rcases buf with _ | ⟨x, t⟩
      · rw [ctrLoop_nil, ctrLoop_nil]
      · rw [@ctrLoop_ne (x :: t) (List.cons_ne_nil x t) Nr rk iv]
        have hks : (storeState (Cipher Nr (loadState iv) rk)).length = 16 :=
          storeState_length _
        by_cases h16 : 16 ≤ (x :: t).length
        · have htk : ((x :: t).take 16).length = 16 := by
            rw [List.length_take]
            omega
          have hch : (List.zipWith (fun a b => a ^^^ b) ((x :: t).take 16)
              (storeState (Cipher Nr (loadState iv) rk))).length = 16 := by
            rw [List.length_zipWith, htk, hks]
            omega
          have hne : (List.zipWith (fun a b => a ^^^ b) ((x :: t).take 16)
              (storeState (Cipher Nr (loadState iv) rk))) ++
              (ctrLoop Nr rk (IncIv iv) ((x :: t).drop 16)).1 ≠ [] := by
            intro hc
            rcases List.append_eq_nil.mp hc with ⟨hc1, _⟩
            rw [hc1] at hch
            simp at hch
          rw [ctrLoop_ne hne Nr rk iv, List.take_left' hch, List.drop_left' hch,
            zipWith_xor_cancel _ _ (by rw [htk, hks]),
            ih _ _ (by simp at h h16 ⊢; omega)]
          exact List.take_append_drop 16 (x :: t)
        · have hdrop : (x :: t).drop 16 = [] :=
            List.drop_eq_nil_iff.mpr (by omega)
          have htk : (x :: t).take 16 = x :: t :=
            List.take_of_length_le (by omega)
          rw [hdrop, ctrLoop_nil, List.append_nil]
          have hch : (List.zipWith (fun a b => a ^^^ b) ((x :: t).take 16)
              (storeState (Cipher Nr (loadState iv) rk))).length ≤ 16 := by
            rw [List.length_zipWith, hks]
            omega
          have hne : (List.zipWith (fun a b => a ^^^ b) ((x :: t).take 16)
              (storeState (Cipher Nr (loadState iv) rk))) ≠ [] := by
            rw [htk]
            intro hc
            have := congrArg List.length hc
            simp [hks] at this
          rw [ctrLoop_ne hne Nr rk iv,
            List.take_of_length_le hch,
            List.drop_eq_nil_iff.mpr hch, ctrLoop_nil, List.append_nil,
            zipWith_xor_cancel _ _ (by rw [htk, hks]; omega), htk]

theorem ecb_block_roundtrip {Nr : Nat} {ctx : AES_ctx} (hNr : 1 ≤ Nr)
    (hrk : wfWords ctx.RoundKey) {b : List Nat} (hlen : b.length = 16)
    (hB : Bytes b) : AES_ECB_decrypt Nr ctx (AES_ECB_encrypt Nr ctx b) = b := by
  unfold AES_ECB_decrypt AES_ECB_encrypt
  rw [loadState_storeState (Cipher_wf (loadState_wf hB) hrk),
    InvCipher_Cipher hNr hrk (loadState_wf hB), storeState_loadState hlen hB]

theorem ecbEncryptBlocks_nil (Nr : Nat) (ctx : AES_ctx) :
    ecbEncryptBlocks Nr ctx [] = [] := by
  rw [ecbEncryptBlocks]

theorem ecbDecryptBlocks_nil (Nr : Nat) (ctx : AES_ctx) :
    ecbDecryptBlocks Nr ctx [] = [] := by
  rw [ecbDecryptBlocks]

theorem ecbEncryptBlocks_block (Nr : Nat) (ctx : AES_ctx) {b : List Nat}
    (hb : b.length = 16) (rest : List Nat) :
    ecbEncryptBlocks Nr ctx (b ++ rest) =
      AES_ECB_encrypt Nr ctx b ++ ecbEncryptBlocks Nr ctx rest := by
  rcases b with _ | ⟨x, t⟩
  · simp at hb
  · rw [show (x :: t) ++ rest = x :: (t ++ rest) from rfl, ecbEncryptBlocks]
    rw [show x :: (t ++ rest) = (x :: t) ++ rest from rfl,
      List.take_left' hb, List.drop_left' hb]

theorem ecbDecryptBlocks_block (Nr : Nat) (ctx : AES_ctx) {b : List Nat}
    (hb : b.length = 16) (rest : List Nat) :
    ecbDecryptBlocks Nr ctx (b ++ rest) =
      AES_ECB_decrypt Nr ctx b ++ ecbDecryptBlocks Nr ctx rest := by
  rcases b with _ | ⟨x, t⟩
  · simp at hb
  · rw [show (x :: t) ++ rest = x :: (t ++ rest) from rfl, ecbDecryptBlocks]
    rw [show x :: (t ++ rest) = (x :: t) ++ rest from rfl,
      List.take_left' hb, List.drop_left' hb]

theorem ecb_blocks_roundtrip {Nr : Nat} {ctx : AES_ctx} (hNr : 1 ≤ Nr)
    (hrk : wfWords ctx.RoundKey) :
    ∀ (n : Nat) (buf : List Nat), buf.length = 16 * n → Bytes buf →
      ecbDecryptBlocks Nr ctx (ecbEncryptBlocks Nr ctx buf) = buf := by
  intro n
  induction n with
  | zero =>
      intro buf hlen _
      obtain rfl : buf = [] := List.eq_nil_of_length_eq_zero (by omega)
      rw [ecbEncryptBlocks_nil, ecbDecryptBlocks_nil]
  | succ n ih =>
      intro buf hlen hB
      have hb16 : (buf.take 16).length = 16 := by simp; omega
      have henclen : (AES_ECB_encrypt Nr ctx (buf.take 16)).length = 16 :=
        storeState_length _
      conv_lhs => rw [← List.take_append_drop 16 buf,
        ecbEncryptBlocks_block Nr ctx hb16]
      rw [ecbDecryptBlocks_block Nr ctx henclen,
        ecb_block_roundtrip hNr hrk hb16 (Bytes_take _ hB),
        ih _ (by simp; omega) (Bytes_drop _ hB), List.take_append_drop]

/-! Counter-increment value lemmas. -/

theorem valLE_lt : ∀ {l : List Nat}, Bytes l → valLE l < 2 ^ (8 * l.length) := by
  intro l
  induction l with
  | nil => intro _; simp [valLE]
  | cons b r ih =>
      intro hB
      have h1 : b < 256 := hB _ (by simp)
      have h2 : valLE r < 2 ^ (8 * r.length) := ih (fun x hx => hB x (by simp [hx]))
      have h3 : 2 ^ (8 * (b :: r).length) = 256 * 2 ^ (8 * r.length) := by
        rw [show 8 * (b :: r).length = 8 * r.length + 8 by simp; omega, Nat.pow_add]
        ring
      rw [h3]
      simp only [valLE]
      omega

theorem incBytesLE_length : ∀ l : List Nat, (incBytesLE l).length = l.length := by
  intro l
  induction l with
  | nil => rfl
  | cons b r ih =>
      by_cases hb : b = 255 <;> simp [incBytesLE, hb, ih]

theorem valLE_incBytesLE : ∀ {l : List Nat}, Bytes l →
    valLE (incBytesLE l) = (valLE l + 1) % 2 ^ (8 * l.length) := by
  intro l
  induction l with
  | nil => simp [incBytesLE, valLE]
  | cons b r ih =>
      intro hB
      have h1 : b < 256 := hB _ (by simp)
      have h2 : valLE r < 2 ^ (8 * r.length) := valLE_lt (fun x hx => hB x (by simp [hx]))
      have h3 : 2 ^ (8 * (b :: r).length) = 256 * 2 ^ (8 * r.length) := by
        rw [show 8 * (b :: r).length = 8 * r.length + 8 by simp; omega, Nat.pow_add]
        ring
      by_cases hb : b = 255
      · subst hb
        rw [show incBytesLE (255 :: r) = 0 :: incBytesLE r by simp [incBytesLE]]
        simp only [valLE]
        rw [ih (fun x hx => hB x (by simp [hx])), h3]
        rw [show 255 + 256 * valLE r + 1 = 256 * (valLE r + 1) by ring,
          Nat.mul_mod_mul_left]
        omega
      · rw [show incBytesLE (b :: r) = (b + 1) :: r by simp [incBytesLE, hb]]
        simp only [valLE]
        rw [h3, Nat.mod_eq_of_lt (by omega)]
        omega

theorem valLE_append_singleton :
    ∀ (a : List Nat) (x : Nat), valLE (a ++ [x]) = valLE a + 2 ^ (8 * a.length) * x := by
  intro a
  induction a with
  | nil => intro x; simp [valLE]
  | cons b r ih =>
      intro x
      show valLE (b :: (r ++ [x])) = _
      simp only [valLE, ih]
      rw [show 8 * (b :: r).length = 8 * r.length + 8 by simp; omega, Nat.pow_add]
      ring

theorem bytesBE_foldl :
    ∀ (l : List Nat) (acc : Nat),
      l.foldl (fun a b => 256 * a + b) acc =
        acc * 2 ^ (8 * l.length) + valLE l.reverse := by
  intro l
  induction l with
  | nil => intro acc; simp [valLE]
  | cons b r ih =>
      intro acc
      show r.foldl (fun a b => 256 * a + b) (256 * acc + b) = _
      rw [ih, List.reverse_cons, valLE_append_singleton, List.length_reverse,
        show 8 * (b :: r).length = 8 * r.length + 8 by simp; omega, Nat.pow_add]
      ring

theorem bytesBE_eq_valLE (l : List Nat) : bytesBE l = valLE l.reverse := by
  unfold bytesBE
  rw [bytesBE_foldl]
  simp

theorem IncIv_value {iv : List Nat} (hB : Bytes iv) (hlen : iv.length = 16) :
    bytesBE (IncIv iv) = (bytesBE iv + 1) % 2 ^ 128 := by
  unfold IncIv
  rw [bytesBE_eq_valLE, List.reverse_reverse,
    valLE_incBytesLE (fun x hx => hB x (List.mem_reverse.mp hx)),
    bytesBE_eq_valLE]
  rw [List.length_reverse, hlen]

theorem IncIv_length {iv : List Nat} : (IncIv iv).length = iv.length := by
  unfold IncIv
  rw [List.length_reverse, incBytesLE_length, List.length_reverse]

/-! Streaming equivalence: one buffer call equals sequential single-block
calls threading the context. -/

theorem cbc_enc_streaming (Nr : Nat) :
    ∀ (blocks : List (List Nat)) (ctx : AES_ctx),
      (∀ b ∈ blocks, b.length = 16) →
      AES_CBC_encrypt_buffer Nr ctx blocks.flatten =
        seqCallsOpt (AES_CBC_encrypt_buffer Nr) ctx blocks := by
  intro blocks
  induction blocks with
  | nil =>
      intro ctx _
      show AES_CBC_encrypt_buffer Nr ctx [] = some ([], ctx)
      unfold AES_CBC_encrypt_buffer
      rw [cbcEncLoop_nil]
  | cons b bs ih =>
      intro ctx hall
      have hb : b.length = 16 := hall b (by simp)
      have hsingle : AES_CBC_encrypt_buffer Nr ctx b =
          some (storeState (Cipher Nr (loadState (XorWithIv b ctx.Iv)) ctx.RoundKey),
            ⟨ctx.RoundKey,
             storeState (Cipher Nr (loadState (XorWithIv b ctx.Iv)) ctx.RoundKey)⟩) := by
        unfold AES_CBC_encrypt_buffer
        rw [cbcEncLoop_single hb]
      have hih := ih ⟨ctx.RoundKey,
          storeState (Cipher Nr (loadState (XorWithIv b ctx.Iv)) ctx.RoundKey)⟩
        (fun x hx => hall x (by simp [hx]))
      show AES_CBC_encrypt_buffer Nr ctx (b ++ bs.flatten) = _
      unfold AES_CBC_encrypt_buffer
      rw [cbcEncLoop_block Nr ctx.RoundKey hb]
      show _ = seqCallsOpt (AES_CBC_encrypt_buffer Nr) ctx (b :: bs)
      simp only [seqCallsOpt, hsingle, ← hih]
      unfold AES_CBC_encrypt_buffer
      rcases cbcEncLoop Nr ctx.RoundKey
        (storeState (Cipher Nr (loadState (XorWithIv b ctx.Iv)) ctx.RoundKey))
        bs.flatten with _ | ⟨out, ivOut⟩ <;> rfl

theorem cbc_dec_streaming (Nr : Nat) :
    ∀ (blocks : List (List Nat)) (ctx : AES_ctx),
      (∀ b ∈ blocks, b.length = 16) →
      AES_CBC_decrypt_buffer Nr ctx blocks.flatten =
        seqCallsOpt (AES_CBC_decrypt_buffer Nr) ctx blocks := by
  intro blocks
  induction blocks with
  | nil =>
      intro ctx _
      show AES_CBC_decrypt_buffer Nr ctx [] = some ([], ctx)
      unfold AES_CBC_decrypt_buffer
      rw [cbcDecLoop_nil]
  | cons b bs ih =>
      intro ctx hall
      have hb : b.length = 16 := hall b (by simp)
      have hsingle : AES_CBC_decrypt_buffer Nr ctx b =
          some (XorWithIv (storeState (InvCipher Nr (loadState b) ctx.RoundKey)) ctx.Iv,
            ⟨ctx.RoundKey, b⟩) := by
        unfold AES_CBC_decrypt_buffer
        rw [cbcDecLoop_single hb]
      have hih := ih ⟨ctx.RoundKey, b⟩ (fun x hx => hall x (by simp [hx]))
      show AES_CBC_decrypt_buffer Nr ctx (b ++ bs.flatten) = _
      unfold AES_CBC_decrypt_buffer
      rw [cbcDecLoop_block Nr ctx.RoundKey hb]
      show _ = seqCallsOpt (AES_CBC_decrypt_buffer Nr) ctx (b :: bs)
      simp only [seqCallsOpt, hsingle, ← hih]
      unfold AES_CBC_decrypt_buffer
      rcases cbcDecLoop Nr ctx.RoundKey b bs.flatten with _ | ⟨out, ivOut⟩ <;> rfl

theorem ctr_single {Nr : Nat} {rk : List Nat} {b : List Nat}
    (hb : b.length = 16) (iv : List Nat) :
    ctrLoop Nr rk iv b =
      (List.zipWith (fun x y => x ^^^ y) b
        (storeState (Cipher Nr (loadState iv) rk)), IncIv iv) := by
  have hne : b ≠ [] := by
    intro hc
    rw [hc] at hb
    simp at hb
  rw [ctrLoop_ne hne Nr rk iv, List.take_of_length_le (by omega),
    List.drop_eq_nil_iff.mpr (by omega), ctrLoop_nil, List.append_nil]

theorem ctr_streaming (Nr : Nat) :
    ∀ (blocks : List (List Nat)) (ctx : AES_ctx),
      (∀ b ∈ blocks, b.length = 16) →
      AES_CTR_xcrypt_buffer Nr ctx blocks.flatten =
        seqCalls (AES_CTR_xcrypt_buffer Nr) ctx blocks := by
  intro blocks
  induction blocks with
  | nil =>
      intro ctx _
      show AES_CTR_xcrypt_buffer Nr ctx [] = ([], ctx)
      unfold AES_CTR_xcrypt_buffer
      rw [ctrLoop_nil]
  | cons b bs ih =>
      intro ctx hall
      have hb : b.length = 16 := hall b (by simp)
      have hbne : b ≠ [] := by
        intro hc
        rw [hc] at hb
        simp at hb
      have hjne : b ++ bs.flatten ≠ [] := by
        intro hc
        rcases List.append_eq_nil.mp hc with ⟨hc1, _⟩
        exact hbne hc1
      have hih := ih ⟨ctx.RoundKey, IncIv ctx.Iv⟩ (fun x hx => hall x (by simp [hx]))
      show AES_CTR_xcrypt_buffer Nr ctx (b ++ bs.flatten) = _
      unfold AES_CTR_xcrypt_buffer
      rw [ctrLoop_ne hjne Nr ctx.RoundKey ctx.Iv, List.take_left' hb,
        List.drop_left' hb]
      show _ = seqCalls (AES_CTR_xcrypt_buffer Nr) ctx (b :: bs)
      simp only [seqCalls]
      rw [show AES_CTR_xcrypt_buffer Nr ctx b =
        (List.zipWith (fun x y => x ^^^ y) b
          (storeState (Cipher Nr (loadState ctx.Iv) ctx.RoundKey)),
         ⟨ctx.RoundKey, IncIv ctx.Iv⟩) by
          unfold AES_CTR_xcrypt_buffer
          rw [ctr_single hb]]
      rw [← hih]
      unfold AES_CTR_xcrypt_buffer
      rfl

/-! For a non-block-multiple length the CBC loops run a partial trailing
block past the end of the buffer: the call succeeds exactly on aligned
lengths. -/

theorem cbcEncLoop_isSome {Nr : Nat} {rk : List Nat} :
    ∀ (n : Nat) (buf iv : List Nat), buf.length ≤ n →
      ((cbcEncLoop Nr rk iv buf).isSome ↔ buf.length % 16 = 0) := by
  intro n
  induction n with
  | zero =>
      intro buf iv h
      obtain rfl : buf = [] := List.eq_nil_of_length_eq_zero (by omega)
      rw [cbcEncLoop_nil]
      simp
  | succ n ih =>
      intro buf iv h
      rcases buf with _ | ⟨x, t⟩
      · rw [cbcEncLoop_nil]; simp
      · by_cases hl : (x :: t).length < 16
        · rw [cbcEncLoop]
          simp only [hl, if_true]
          simp at hl ⊢
          omega
        · have hb16 : ((x :: t).take 16).length = 16 := by
            rw [List.length_take]
            omega
          conv_lhs => rw [← List.take_append_drop 16 (x :: t),
            cbcEncLoop_block Nr rk hb16]
          have hih := ih ((x :: t).drop 16)
            (storeState (Cipher Nr
              (loadState (XorWithIv ((x :: t).take 16) iv)) rk))
            (by simp at h ⊢; omega)
          rcases h' : cbcEncLoop Nr rk
            (storeState (Cipher Nr (loadState (XorWithIv ((x :: t).take 16) iv)) rk))
            ((x :: t).drop 16) with _ | ⟨out, ivOut⟩
          · rw [h'] at hih
            simp at hih ⊢
            simp at hl
            omega
          · rw [h'] at hih
            simp at hih ⊢
            simp at hl
            omega

theorem cbcDecLoop_isSome {Nr : Nat} {rk : List Nat} :
    ∀ (n : Nat) (buf iv : List Nat), buf.length ≤ n →
      ((cbcDecLoop Nr rk iv buf).isSome ↔ buf.length % 16 = 0) := by
  intro n
  induction n with
  | zero =>
      intro buf iv h
      obtain rfl : buf = [] := List.eq_nil_of_length_eq_zero (by omega)
      rw [cbcDecLoop_nil]
      simp
  | succ n ih =>
      intro buf iv h
      rcases buf with _ | ⟨x, t⟩
      · rw [cbcDecLoop_nil]; simp
      · by_cases hl : (x :: t).length < 16
        · rw [cbcDecLoop]
          simp only [hl, if_true]
          simp at hl ⊢
          omega
        · have hb16 : ((x :: t).take 16).length = 16 := by
            rw [List.length_take]
            omega
          conv_lhs => rw [← List.take_append_drop 16 (x :: t),
            cbcDecLoop_block Nr rk hb16]
          have hih := ih ((x :: t).drop 16) ((x :: t).take 16)
            (by simp at h ⊢; omega)
          rcases h' : cbcDecLoop Nr rk ((x :: t).take 16) ((x :: t).drop 16)
            with _ | ⟨out, ivOut⟩
          · rw [h'] at hih
            simp at hih ⊢
            simp at hl
            omega
          · rw [h'] at hih
            simp at hih ⊢
            simp at hl
            omega

/-! The word-rotation MixColumns equals the reference matrix definition. -/

theorem xtimeByte_eq_spec (b : Nat) : xtimeByte b = xtimeSpec b := by
  unfold xtimeByte xtimeSpec
  rw [show 2 * (b % 128) = 2 * b % 256 by omega]
  rcases hb : b.testBit 7 <;> simp

theorem mixColumnsWord_eq_spec {w : Nat} (h : w < 4294967296) :
    mixColumnsWord w = mixColumnSpecWord w := by
  rw [mixColumnsWord_eta h]
  unfold mixColumnSpecWord gmul3
  simp only [xtimeByte_xor]
  simp only [xtimeByte_eq_spec]
  simp only [Nat.xor_comm, xor_left_comm, Nat.xor_assoc]

/-! The ten claims. -/

/-- Shared: a replicated byte list is a byte list. -/
theorem bytes_replicate (n c : Nat) (h : c < 256) : Bytes (List.replicate n c) :=
  fun b hb => by rw [List.eq_of_mem_replicate hb]; exact h

set_option maxRecDepth 100000 in
/-- Claim C1: encrypting the single 16-byte block
`6bc1bee22e409f96e93d7e117393172a` in ECB mode under the 128-bit key
`2b7e151628aed2a6abf7158809cf4f3c` produces exactly the ciphertext block
`3ad77bb40d7a3660a89ecaf32466ef97` (the NIST SP 800-38A ECB-AES128
vector). -/
theorem c1_nist_ecb_aes128_vector :
    AES_ECB_encrypt 10
      (AES_init_ctx_iv 4 10
        [0x2b, 0x7e, 0x15, 0x16, 0x28, 0xae, 0xd2, 0xa6,
         0xab, 0xf7, 0x15, 0x88, 0x09, 0xcf, 0x4f, 0x3c] [])
      [0x6b, 0xc1, 0xbe, 0xe2, 0x2e, 0x40, 0x9f, 0x96,
       0xe9, 0x3d, 0x7e, 0x11, 0x73, 0x93, 0x17, 0x2a] =
      [0x3a, 0xd7, 0x7b, 0xb4, 0x0d, 0x7a, 0x36, 0x60,
       0xa8, 0x9e, 0xca, 0xf3, 0x24, 0x66, 0xef, 0x97] := by
  decide

/-- Claim C2: for every supported key size (`Nk`, `Nr` of 128/192/256-bit
AES), every key, IV and plaintext of bytes, decrypting the encryption
returns the plaintext: for 16-byte-aligned buffers in ECB (block by
block) and CBC (where both calls succeed), and for buffers of any length
in CTR with the same initial counter. -/
theorem c2_all_modes_roundtrip (Nk Nr : Nat)
    (hv : (Nk, Nr) = (4, 10) ∨ (Nk, Nr) = (6, 12) ∨ (Nk, Nr) = (8, 14))
    (key iv buf : List Nat) (hkey : key.length = 4 * Nk) (hkeyB : Bytes key)
    (hiv : iv.length = 16) (hivB : Bytes iv) (hbufB : Bytes buf) :
    (buf.length % 16 = 0 →
      ecbDecryptBlocks Nr (AES_init_ctx_iv Nk Nr key iv)
          (ecbEncryptBlocks Nr (AES_init_ctx_iv Nk Nr key iv) buf) = buf ∧
      ∃ c ctxE ctxD,
        AES_CBC_encrypt_buffer Nr (AES_init_ctx_iv Nk Nr key iv) buf =
          some (c, ctxE) ∧
        AES_CBC_decrypt_buffer Nr (AES_init_ctx_iv Nk Nr key iv) c =
          some (buf, ctxD)) ∧
    (AES_CTR_xcrypt_buffer Nr (AES_init_ctx_iv Nk Nr key iv)
        (AES_CTR_xcrypt_buffer Nr (AES_init_ctx_iv Nk Nr key iv) buf).1).1 =
      buf := by
  have hNr : 1 ≤ Nr := by
    rcases hv with h | h | h <;> simp at h <;> omega
  have hrk : wfWords (KeyExpansion Nk Nr key) := KeyExpansion_wf hkeyB
  constructor
  · intro halign
    obtain ⟨n, hn⟩ : ∃ n, buf.length = 16 * n := ⟨buf.length / 16, by omega⟩
    refine ⟨ecb_blocks_roundtrip hNr hrk n buf hn hbufB, ?_⟩
    obtain ⟨c, ivE, ivD, henc, hBc, hlenc, hdec⟩ :=
      cbc_roundtrip hNr hrk n buf iv hn hbufB hivB hiv
    refine ⟨c, ⟨KeyExpansion Nk Nr key, ivE⟩, ⟨KeyExpansion Nk Nr key, ivD⟩,
      ?_, ?_⟩
    · unfold AES_CBC_encrypt_buffer
      rw [show (AES_init_ctx_iv Nk Nr key iv).RoundKey = KeyExpansion Nk Nr key
          from rfl,
        show (AES_init_ctx_iv Nk Nr key iv).Iv = iv from rfl, henc]
    · unfold AES_CBC_decrypt_buffer
      rw [show (AES_init_ctx_iv Nk Nr key iv).RoundKey = KeyExpansion Nk Nr key
          from rfl,
        show (AES_init_ctx_iv Nk Nr key iv).Iv = iv from rfl, hdec]
  · exact ctr_roundtrip buf.length buf iv (le_refl _)

/-- Witness for C2 at `Nk = 4`, `Nr = 10`, an all-zero 16-byte key, IV
and plaintext. -/
theorem c2_all_modes_roundtrip_witness :
    ((List.replicate 16 0 : List Nat).length % 16 = 0 →
      ecbDecryptBlocks 10
          (AES_init_ctx_iv 4 10 (List.replicate 16 0) (List.replicate 16 0))
          (ecbEncryptBlocks 10
            (AES_init_ctx_iv 4 10 (List.replicate 16 0) (List.replicate 16 0))
            (List.replicate 16 0)) = List.replicate 16 0 ∧
      ∃ c ctxE ctxD,
        AES_CBC_encrypt_buffer 10
            (AES_init_ctx_iv 4 10 (List.replicate 16 0) (List.replicate 16 0))
            (List.replicate 16 0) = some (c, ctxE) ∧
        AES_CBC_decrypt_buffer 10
            (AES_init_ctx_iv 4 10 (List.replicate 16 0) (List.replicate 16 0))
            c = some (List.replicate 16 0, ctxD)) ∧
    (AES_CTR_xcrypt_buffer 10
        (AES_init_ctx_iv 4 10 (List.replicate 16 0) (List.replicate 16 0))
        (AES_CTR_xcrypt_buffer 10
          (AES_init_ctx_iv 4 10 (List.replicate 16 0) (List.replicate 16 0))
          (List.replicate 16 0)).1).1 = List.replicate 16 0 :=
  c2_all_modes_roundtrip 4 10 (Or.inl rfl) (List.replicate 16 0)
    (List.replicate 16 0) (List.replicate 16 0) (by simp)
    (bytes_replicate 16 0 (by omega)) (by simp)
    (bytes_replicate 16 0 (by omega)) (bytes_replicate 16 0 (by omega))

/-- Claim C3: for every byte key and supported size, `KeyExpansion`
yields `4 * (Nr + 1)` words whose first `Nk` words are the key bytes
themselves (as little-endian words, exactly as `memcpy` lays them into
the word array), and in which every later word `w[i]` is
`w[i - Nk] ^^^ keTempSpec Nk i w[i - 1]` — `keTempSpec` being: rotate
left one byte, S-box each byte, XOR the low byte with `Rcon[i / Nk]`
when `i % Nk = 0`; S-box only when `Nk = 8` and `i % Nk = 4`; unchanged
otherwise. -/
theorem c3_key_expansion_schedule (Nk Nr : Nat)
    (hv : (Nk, Nr) = (4, 10) ∨ (Nk, Nr) = (6, 12) ∨ (Nk, Nr) = (8, 14))
    (Key : List Nat) (hlen : Key.length = 4 * Nk) (hB : Bytes Key) :
    (KeyExpansion Nk Nr Key).length = 4 * (Nr + 1) ∧
    (∀ j, j < Nk → (KeyExpansion Nk Nr Key).getD j 0 = wordAt Key j) ∧
    (∀ i, Nk ≤ i → i < 4 * (Nr + 1) →
      (KeyExpansion Nk Nr Key).getD i 0 =
        (KeyExpansion Nk Nr Key).getD (i - Nk) 0 ^^^
          keTempSpec Nk i ((KeyExpansion Nk Nr Key).getD (i - 1) 0)) := by
  have hNk : 0 < Nk ∧ Nk ≤ 4 * (Nr + 1) := by
    rcases hv with h | h | h <;> simp at h <;> omega
  exact ⟨KeyExpansion_length hNk.2 Key,
    fun j hj => KeyExpansion_init Key hj,
    fun i h1 h2 => KeyExpansion_rec hNk.1 hB h1 h2⟩

/-- Witness for C3: the schedule of the all-zero 16-byte key has 44
words. -/
theorem c3_key_expansion_schedule_witness :
    (KeyExpansion 4 10 (List.replicate 16 0)).length = 4 * (10 + 1) :=
  (c3_key_expansion_schedule 4 10 (Or.inl rfl) (List.replicate 16 0)
    (by simp) (bytes_replicate 16 0 (by omega))).1

/-- Claim C4: for every well-formed state, the word-rotation
implementation of `MixColumns` equals the reference circulant-matrix
definition `MixColumnsSpec` (each column times `{02, 03, 01, 01}` over
`GF(2 ^ 8)`, with `{02}` the masked byte-lane `xtime`). -/
theorem c4_mixcolumns_matches_matrix (s : state_t) (h : wfState s) :
    MixColumns s = MixColumnsSpec s := by
  obtain ⟨h0, h1, h2, h3⟩ := h
  unfold MixColumns MixColumnsSpec
  rw [mixColumnsWord_eq_spec h0, mixColumnsWord_eq_spec h1,
    mixColumnsWord_eq_spec h2, mixColumnsWord_eq_spec h3]

/-- Witness for C4 at a concrete state. -/
theorem c4_mixcolumns_matches_matrix_witness :
    MixColumns ⟨1, 2, 3, 4⟩ = MixColumnsSpec ⟨1, 2, 3, 4⟩ :=
  c4_mixcolumns_matches_matrix ⟨1, 2, 3, 4⟩
    ⟨by unfold wfWord; decide, by unfold wfWord; decide,
      by unfold wfWord; decide, by unfold wfWord; decide⟩

/-- Claim C5: for every round-key schedule and state, `Cipher` is
exactly `AddRoundKey(0)`, then the full rounds `1 .. Nr - 1`
(`SubBytes; ShiftRows; MixColumns; AddRoundKey(round)`), then the final
round `SubBytes; ShiftRows; AddRoundKey(Nr)` with `MixColumns`
omitted — i.e. it equals `CipherSpec`. -/
theorem c5_cipher_round_sequence (Nr : Nat) (hNr : 1 ≤ Nr) (s : state_t)
    (rk : List Nat) : Cipher Nr s rk = CipherSpec Nr s rk := by
  unfold Cipher CipherSpec
  rw [cipherRounds_eq_spec, show 1 + (Nr - 1) = Nr by omega]

/-- Witness for C5 at `Nr = 10`, a concrete state and empty schedule. -/
theorem c5_cipher_round_sequence_witness :
    Cipher 10 ⟨0, 0, 0, 0⟩ [] = CipherSpec 10 ⟨0, 0, 0, 0⟩ [] :=
  c5_cipher_round_sequence 10 (by omega) ⟨0, 0, 0, 0⟩ []

/-- Claim C6: the counter-increment step of `AES_CTR_xcrypt_buffer`
(`IncIv`, reached whenever a keystream block is consumed) replaces the
16-byte counter by its successor as a big-endian 128-bit integer modulo
`2 ^ 128`; in each `ctrLoop` step the counter threaded onward is
`IncIv` of the current one; and the all-`0xFF` counter wraps to
all-zero. -/
theorem c6_ctr_counter_increment (iv : List Nat) (hB : Bytes iv)
    (hlen : iv.length = 16) :
    bytesBE (IncIv iv) = (bytesBE iv + 1) % 2 ^ 128 ∧
    (∀ (Nr : Nat) (rk buf : List Nat), buf ≠ [] →
      (ctrLoop Nr rk iv buf).2 = (ctrLoop Nr rk (IncIv iv) (buf.drop 16)).2) ∧
    IncIv (List.replicate 16 255) = List.replicate 16 0 := by
  refine ⟨IncIv_value hB hlen, ?_, by decide⟩
  intro Nr rk buf hne
  rw [ctrLoop_ne hne Nr rk iv]

/-- Witness for C6 at the all-zero counter. -/
theorem c6_ctr_counter_increment_witness :
    bytesBE (IncIv (List.replicate 16 0)) =
      (bytesBE (List.replicate 16 0) + 1) % 2 ^ 128 :=
  (c6_ctr_counter_increment (List.replicate 16 0)
    (bytes_replicate 16 0 (by omega)) (by simp)).1

/-- Claim C7: for every context and every buffer of complete 16-byte
blocks, one CBC-encrypt, CBC-decrypt or CTR call on the whole buffer
equals the sequential single-block calls threading the same context —
same output bytes and same final chaining value (IV or counter). -/
theorem c7_streaming_equivalence (Nr : Nat) (blocks : List (List Nat))
    (ctx : AES_ctx) (hall : ∀ b ∈ blocks, b.length = 16) :
    AES_CBC_encrypt_buffer Nr ctx blocks.flatten =
      seqCallsOpt (AES_CBC_encrypt_buffer Nr) ctx blocks ∧
    AES_CBC_decrypt_buffer Nr ctx blocks.flatten =
      seqCallsOpt (AES_CBC_decrypt_buffer Nr) ctx blocks ∧
    AES_CTR_xcrypt_buffer Nr ctx blocks.flatten =
      seqCalls (AES_CTR_xcrypt_buffer Nr) ctx blocks :=
  ⟨cbc_enc_streaming Nr blocks ctx hall,
    cbc_dec_streaming Nr blocks ctx hall,
    ctr_streaming Nr blocks ctx hall⟩

/-- Witness for C7 on a single all-zero block. -/
theorem c7_streaming_equivalence_witness :
    AES_CTR_xcrypt_buffer 10 ⟨[], List.replicate 16 0⟩
        [List.replicate 16 0].flatten =
      seqCalls (AES_CTR_xcrypt_buffer 10) ⟨[], List.replicate 16 0⟩
        [List.replicate 16 0] :=
  (c7_streaming_equivalence 10 [List.replicate 16 0] ⟨[], List.replicate 16 0⟩
    (fun b hb => by rw [List.mem_singleton.mp hb]; simp)).2.2

/-- Claim C8 (amended): on a buffer whose length is not a multiple of 16
the CBC block loop does NOT stop short of the trailing partial block —
it runs a full 16-byte block starting inside it, reading (and for
decryption writing) past the end of the buffer.  Modelling an
out-of-bounds block access as `none`: `AES_CBC_encrypt_buffer` and
`AES_CBC_decrypt_buffer` complete in-bounds exactly when the length is a
multiple of 16. -/
theorem c8_cbc_unaligned_overruns (Nr : Nat) (ctx : AES_ctx)
    (buf : List Nat) :
    ((AES_CBC_encrypt_buffer Nr ctx buf).isSome ↔ buf.length % 16 = 0) ∧
    ((AES_CBC_decrypt_buffer Nr ctx buf).isSome ↔ buf.length % 16 = 0) := by
  have h1 := @cbcEncLoop_isSome Nr ctx.RoundKey buf.length buf ctx.Iv
    (le_refl _)
  have h2 := @cbcDecLoop_isSome Nr ctx.RoundKey buf.length buf ctx.Iv
    (le_refl _)
  constructor
  · unfold AES_CBC_encrypt_buffer
    rcases h : cbcEncLoop Nr ctx.RoundKey ctx.Iv buf with _ | ⟨out, iv⟩ <;>
      rw [h] at h1 <;> simpa using h1
  · unfold AES_CBC_decrypt_buffer
    rcases h : cbcDecLoop Nr ctx.RoundKey ctx.Iv buf with _ | ⟨out, iv⟩ <;>
      rw [h] at h2 <;> simpa using h2

/-- Counterexample to C8 as stated: on a 17-byte buffer the loop does
not stop after the one complete block — its second iteration accesses a
full block at offset 16, past the end of the buffer, so both CBC calls
hit the out-of-bounds access (`none`) instead of leaving the trailing
byte untouched. -/
theorem c8_cbc_unaligned_counterexample :
    AES_CBC_encrypt_buffer 10 ⟨List.replicate 44 0, List.replicate 16 0⟩
        (List.replicate 17 0) = none ∧
    AES_CBC_decrypt_buffer 10 ⟨List.replicate 44 0, List.replicate 16 0⟩
        (List.replicate 17 0) = none := by
  have h1 : cbcEncLoop 10 (List.replicate 44 0) (List.replicate 16 0)
      (List.replicate 17 0) = none := by
    have h := @cbcEncLoop_isSome 10 (List.replicate 44 0) 17
      (List.replicate 17 0) (List.replicate 16 0) (by simp)
    simp at h
    simpa using h
  have h2 : cbcDecLoop 10 (List.replicate 44 0) (List.replicate 16 0)
      (List.replicate 17 0) = none := by
    have h := @cbcDecLoop_isSome 10 (List.replicate 44 0) 17
      (List.replicate 17 0) (List.replicate 16 0) (by simp)
    simp at h
    simpa using h
  constructor
  · simp only [AES_CBC_encrypt_buffer]
    rw [h1]
  · simp only [AES_CBC_decrypt_buffer]
    rw [h2]

/-- Claim C9: `sbox` and `rsbox` are mutually inverse permutations of
the byte values — `rsbox[sbox[x]] = x` and `sbox[rsbox[x]] = x` for
every byte `x` — hence `InvSubBytes` after `SubBytes` restores every
well-formed state. -/
theorem c9_sbox_rsbox_inverse :
    (∀ x : Nat, x < 256 → getSBoxInvert (getSBoxValue x) = x ∧
      getSBoxValue (getSBoxInvert x) = x) ∧
    (∀ s : state_t, wfState s → InvSubBytes (SubBytes s) = s) :=
  ⟨fun x hx => ⟨rsbox_sbox x hx, sbox_rsbox x hx⟩,
    fun _ hs => InvSubBytes_SubBytes hs⟩

/-- Witness for C9 at the byte `0xab`. -/
theorem c9_sbox_rsbox_inverse_witness :
    getSBoxInvert (getSBoxValue 171) = 171 :=
  (c9_sbox_rsbox_inverse.1 171 (by omega)).1

/-- Claim C10: `AES_CTR_xcrypt_buffer` on an empty buffer is a complete
no-op — the output is empty and the context (round keys and counter) is
returned unchanged: no keystream block is generated, no counter
increment happens. -/
theorem c10_ctr_empty_noop (Nr : Nat) (ctx : AES_ctx) :
    AES_CTR_xcrypt_buffer Nr ctx [] = ([], ctx) := by
  unfold AES_CTR_xcrypt_buffer
  rw [ctrLoop_nil]
